import Mathlib

/-!
# EPSO AD5 Digital Prep: a verification development of `app.js`

The progress store, the answer log, the exam session, the study timer and the
per-theme statistics of `app.js` are embedded as Lean functions, with the
browser state they read (the persisted blob, the clock, interval ids) passed
explicitly.  JavaScript numbers that hold counts, seconds and epoch
milliseconds are integers below `2^53` and are embedded as `Nat`/`Int`; the
two places where the program divides (`correct / 40`, `correct / total`) are
embedded with IEEE-754 binary64 rounding (`Dbl`).
-/

namespace EpsoPrep

/-! ## Insertion-ordered string-keyed maps (JavaScript objects and `Map`) -/

/-- A string-keyed map that remembers insertion order, as a `Map` does, and as
a plain object does for the keys used here: day keys are ISO dates and field
names are fixed, so no key is an array index or a name inherited from
`Object.prototype`. -/
abbrev Dict (β : Type) := List (String × β)

namespace Dict

/-- Property read `m[k]` / `m.get(k)`: `none` stands for `undefined`. -/
def get {β : Type} (m : Dict β) (k : String) : Option β :=
  match m with
  | [] => none
  | (k', v) :: rest => if k' = k then some v else get rest k

/-- Property write `m[k] = v` / `m.set(k, v)`: an existing key keeps its
position, a new key is appended. -/
def set {β : Type} (m : Dict β) (k : String) (v : β) : Dict β :=
  match m with
  | [] => [(k, v)]
  | (k', v') :: rest => if k' = k then (k, v) :: rest else (k', v') :: set rest k v

/-- The statement `delete m[k]`. -/
def erase {β : Type} (m : Dict β) (k : String) : Dict β :=
  m.filter (fun kv => kv.1 ≠ k)

/-- The keys in insertion order (`Object.keys`). -/
def keys {β : Type} (m : Dict β) : List String := m.map Prod.fst

end Dict

/-! ## The progress store -/

/-- A day record `{ seconds, sessions, updatedAt }`. -/
structure DayRecord where
  seconds : Int
  sessions : Int
  updatedAt : Int
  deriving DecidableEq, Repr

/-- An answer event `{ t, theme, correct }`. -/
structure AnswerEvent where
  t : Int
  theme : String
  correct : Bool
  deriving DecidableEq, Repr

/-- The persisted object `{ days, answers }` when it has the documented
schema. -/
structure Store where
  days : Dict DayRecord
  answers : List AnswerEvent
  deriving DecidableEq, Repr

/-- The object literal `{ days: {}, answers: [] }`. -/
def emptyStore : Store := { days := [], answers := [] }

/-- The content of `localStorage` under `STORE_KEY` when it is absent (`none`)
or holds a store of the documented schema. -/
abbrev Storage := Option Store

/-- `loadStore()` on a blob that is absent or follows the schema: both fields
are present and truthy, so the defaults do not fire. -/
def loadStore (ls : Storage) : Store :=
  match ls with
  | none => emptyStore
  | some obj => obj

/-- `saveStore(store)`: the blob is replaced by the serialised store. -/
def saveStore (store : Store) : Storage := some store

/-- `ensureDay(store, dayISO)`: returns the store (possibly with the fresh
record inserted) and the record now stored under `dayISO`.  Records are
objects, hence truthy, so `!store.days[dayISO]` holds exactly when the key is
missing. -/
def ensureDay (now : Int) (store : Store) (dayISO : String) : Store × DayRecord :=
  match store.days.get dayISO with
  | none =>
    let fresh : DayRecord := { seconds := 0, sessions := 0, updatedAt := now }
    ({ store with days := store.days.set dayISO fresh }, fresh)
  | some day => (store, day)

/-- `addTimeToDay(dayISO, secondsToAdd)` for an integer `secondsToAdd` (so
`Math.floor` is the identity).  `day` aliases `store.days[dayISO]`, so the
field updates are written back under the same key. -/
def addTimeToDay (now : Int) (dayISO : String) (secondsToAdd : Int) (ls : Storage) : Storage :=
  let store := loadStore ls
  let (store, day) := ensureDay now store dayISO
  let day := { day with seconds := max 0 (day.seconds + secondsToAdd) }
  let day := { day with sessions := day.sessions + 1 }
  let day := { day with updatedAt := now }
  saveStore { store with days := store.days.set dayISO day }

/-- `clearDay(dayISO)`. -/
def clearDay (dayISO : String) (ls : Storage) : Storage :=
  let store := loadStore ls
  saveStore { store with days := store.days.erase dayISO }

/-- `clearAll()`: the key is removed. -/
def clearAll (_ls : Storage) : Storage := none

/-- `logAnswer(theme, correct)`: push, then keep the last 10000 entries when
the length exceeds 10000 (`slice(length - 10000)`). -/
def logAnswer (now : Int) (theme : String) (correct : Bool) (ls : Storage) : Storage :=
  let store := loadStore ls
  let answers := store.answers ++ [({ t := now, theme := theme, correct := correct } : AnswerEvent)]
  let answers := if answers.length > 10000 then answers.drop (answers.length - 10000) else answers
  saveStore { store with answers := answers }

/-- A sequence of `addTimeToDay(day, delta)` calls, each with its own clock
reading, applied left to right. -/
def addTimeCalls (calls : List (Int × String × Int)) (ls : Storage) : Storage :=
  calls.foldl (fun acc c => addTimeToDay c.1 c.2.1 c.2.2 acc) ls

/-- A sequence of `logAnswer(theme, correct)` calls, each with its own clock
reading, applied left to right. -/
def logAnswerCalls (calls : List (Int × String × Bool)) (ls : Storage) : Storage :=
  calls.foldl (fun acc c => logAnswer c.1 c.2.1 c.2.2 acc) ls

/-- The event pushed by one `logAnswer` call. -/
def eventOf (c : Int × String × Bool) : AnswerEvent :=
  { t := c.1, theme := c.2.1, correct := c.2.2 }

/-- Every day record of the loaded store has non-negative seconds. -/
def secondsNonneg (ls : Storage) : Prop :=
  ∀ kv ∈ (loadStore ls).days, 0 ≤ kv.2.seconds

/-! ## The persisted blob as an arbitrary JSON value -/

/-- A JavaScript value as `JSON.parse` produces it.  A number is the rational
its JSON literal denotes (integers and fractions alike; the rounding to a
double is not modelled); an array also carries the named properties assigned
to it. -/
inductive JVal where
  | null : JVal
  | bool (b : Bool) : JVal
  | num (n : ℚ) : JVal
  | str (s : String) : JVal
  | arr (items : List JVal) (props : List (String × JVal)) : JVal
  | obj (fields : List (String × JVal)) : JVal

/-- What `localStorage.getItem(STORE_KEY)` holds: nothing (`null`, or the
equally falsy empty string), a text on which `JSON.parse` throws, or a text
that parses to the value `v`. -/
inductive Blob where
  | absent : Blob
  | unparseable : Blob
  | parsed (v : JVal) : Blob

namespace Json

/-- Truthiness of a property read; `none` is `undefined`. -/
def truthy : Option JVal → Bool
  | none => false
  | some JVal.null => false
  | some (JVal.bool b) => b
  | some (JVal.num n) => n != 0
  | some (JVal.str s) => s != ""
  | some (JVal.arr _ _) => true
  | some (JVal.obj _) => true

/-- The read `v[k]` for a key `k` that no prototype defines (`days`,
`answers`, the fields of a record): it throws on `null`, finds nothing on
a primitive, and reads the own property of an object or array. -/
def getProp (v : JVal) (k : String) : Except Unit (Option JVal) :=
  match v with
  | JVal.null => Except.error ()
  | JVal.obj fields => Except.ok (Dict.get fields k)
  | JVal.arr _ props => Except.ok (Dict.get props k)
  | _ => Except.ok none

/-- The assignment `v[k] = x` in a classic (non-strict) script, which `app.js`
is: it creates or overwrites the own property of an object or array and is
silently ignored on a primitive. -/
def setProp (v : JVal) (k : String) (x : JVal) : JVal :=
  match v with
  | JVal.obj fields => JVal.obj (Dict.set fields k x)
  | JVal.arr items props => JVal.arr items (Dict.set props k x)
  | other => other

/-- The object literal `{ days: {}, answers: [] }`. -/
def emptyStore : JVal :=
  JVal.obj [("days", JVal.obj []), ("answers", JVal.arr [] [])]

/-- The body of the `try` block of `loadStore()`; `Except.error` is a thrown
exception. -/
def loadStoreTry (raw : Blob) : Except Unit JVal :=
  match raw with
  | Blob.absent => Except.ok emptyStore
  | Blob.unparseable => Except.error ()
  | Blob.parsed obj => do
    let days ← getProp obj "days"
    let obj := if !truthy days then setProp obj "days" (JVal.obj []) else obj
    let answers ← getProp obj "answers"
    let obj := if !truthy answers then setProp obj "answers" (JVal.arr [] []) else obj
    return obj

/-- `loadStore()` on an arbitrary blob: the `catch` returns the empty store. -/
def loadStore (raw : Blob) : JVal :=
  match loadStoreTry raw with
  | Except.ok obj => obj
  | Except.error _ => emptyStore

/-- The value is a number. -/
def isNum : Option JVal → Bool
  | some (JVal.num _) => true
  | _ => false

/-- The value is a day record `{ seconds, sessions, updatedAt }` with numeric
fields. -/
def isDayRecord : JVal → Bool
  | JVal.obj fields =>
    isNum (Dict.get fields "seconds") && isNum (Dict.get fields "sessions") &&
      isNum (Dict.get fields "updatedAt")
  | _ => false

/-- The value is a mapping whose values are day records. -/
def isDaysMap : Option JVal → Bool
  | some (JVal.obj fields) => fields.all (fun kv => isDayRecord kv.2)
  | _ => false

/-- The value is a sequence (an array). -/
def isSequence : Option JVal → Bool
  | some (JVal.arr _ _) => true
  | _ => false

/-- A structurally valid store: `days` is a mapping of day records and
`answers` is a sequence. -/
def validStore (v : JVal) : Bool :=
  match getProp v "days", getProp v "answers" with
  | Except.ok days, Except.ok answers => isDaysMap days && isSequence answers
  | _, _ => false

/-- A field as `loadStore` can leave it valid: missing or falsy (then it is
replaced by the default), or already of the right shape. -/
def fieldOk (shape : Option JVal → Bool) (x : Option JVal) : Bool :=
  !truthy x || shape x

end Json

/-- JSON image of a day record. -/
def DayRecord.toJVal (r : DayRecord) : JVal :=
  JVal.obj [("seconds", JVal.num (r.seconds : ℚ)), ("sessions", JVal.num (r.sessions : ℚ)),
    ("updatedAt", JVal.num (r.updatedAt : ℚ))]

/-- JSON image of an answer event. -/
def AnswerEvent.toJVal (a : AnswerEvent) : JVal :=
  JVal.obj [("t", JVal.num (a.t : ℚ)), ("theme", JVal.str a.theme),
    ("correct", JVal.bool a.correct)]

/-- JSON image of a store of the documented schema. -/
def Store.toJVal (st : Store) : JVal :=
  JVal.obj [("days", JVal.obj (st.days.map (fun kv => (kv.1, kv.2.toJVal)))),
    ("answers", JVal.arr (st.answers.map AnswerEvent.toJVal) [])]

/-- The blob that a `Storage` stands for. -/
def persist (ls : Storage) : Blob :=
  match ls with
  | none => Blob.absent
  | some st => Blob.parsed st.toJVal

/-! ## IEEE-754 binary64 arithmetic on non-negative numbers -/

/-- A non-negative finite double, written `m * 2^e`.  The exponent range is
not bounded: the quotients and products of this program stay far inside the
normal range. -/
structure Dbl where
  m : Nat
  e : Int
  deriving DecidableEq, Repr

/-- The rational value of a double. -/
def Dbl.toRat (x : Dbl) : ℚ := (x.m : ℚ) * (2 : ℚ) ^ x.e

/-- An integer below `2^53` as a double (exact). -/
def Dbl.ofNat (n : Nat) : Dbl := { m := n, e := 0 }

/-- The integer nearest to `n / d`, ties to even (`d > 0`). -/
def roundNearestEven (n d : Nat) : Nat :=
  let q := n / d
  let r := n % d
  if 2 * r < d then q
  else if d < 2 * r then q + 1
  else if q % 2 = 0 then q else q + 1

/-- Binary logarithm by repeated halving, at most `fuel` times. -/
def log2Fuel : Nat → Nat → Nat
  | 0, _ => 0
  | fuel + 1, n => if n < 2 then 0 else log2Fuel fuel (n / 2) + 1

/-- The exponent `a` with `2^a <= n < 2^(a+1)` (`n > 0`). -/
def ilog2 (n : Nat) : Nat := log2Fuel n n

/-- The exponent `k` with `2^k <= n / d < 2^(k+1)` (`n, d > 0`). -/
def floorLog2 (n d : Nat) : Int :=
  let a := ilog2 n
  let b := ilog2 d
  if d * 2 ^ a ≤ n * 2 ^ b then (a : Int) - b else (a : Int) - b - 1

/-- The double nearest to the rational `n / d` (`d > 0`), round to nearest,
ties to even, with a 53-bit significand. -/
def roundTo53 (n d : Nat) : Dbl :=
  if n = 0 then { m := 0, e := 0 }
  else
    let s := floorLog2 n d - 52
    { m := roundNearestEven (n * 2 ^ (-s).toNat) (d * 2 ^ s.toNat), e := s }

/-- The operator `/` on doubles (`b` non-zero). -/
def Dbl.div (a b : Dbl) : Dbl :=
  let r := roundTo53 a.m b.m
  { m := r.m, e := r.e + a.e - b.e }

/-- The operator `*` on doubles. -/
def Dbl.mul (a b : Dbl) : Dbl :=
  let r := roundTo53 (a.m * b.m) 1
  { m := r.m, e := r.e + a.e + b.e }

/-- `Math.round(x)` for `x >= 0`: the integer `floor(x + 1/2)`, computed
exactly. -/
def mathRound (x : Dbl) : Nat :=
  if 0 ≤ x.e then x.m * 2 ^ x.e.toNat
  else (2 * x.m + 2 ^ (-x.e).toNat) / (2 * 2 ^ (-x.e).toNat)

/-- The expression `Math.round((correct / total) * 100)`. -/
def roundPct (correct total : Nat) : Nat :=
  mathRound (Dbl.mul (Dbl.div (Dbl.ofNat correct) (Dbl.ofNat total)) (Dbl.ofNat 100))

/-- The percentage `round(100 * correct / total)` in exact arithmetic, halves
rounded up: the integer `floor(100 * correct / total + 1/2)`. -/
def exactPct (correct total : Nat) : Nat :=
  (200 * correct + total) / (2 * total)

/-! ## The question bank and the exam session -/

/-- A validated question record `{ theme, q, opts, a, exp }`. -/
structure Question where
  theme : String
  q : String
  opts : List String
  a : Int
  exp : String
  deriving DecidableEq, Repr

/-- The global `exam` object. -/
structure Exam where
  running : Bool
  timeLeft : Int
  timerId : Option Nat
  questions : List Question
  idx : Nat
  correct : Nat
  deriving DecidableEq, Repr

/-- What the element `examArea` shows: nothing, a rendered question with the
`locked` flag of its click handlers, or the score card of `endExam`. -/
inductive ExamArea where
  | blank : ExamArea
  | question (qObj : Question) (locked : Bool) : ExamArea
  | finished (correct : Nat) (scorePct : Nat) : ExamArea
  deriving DecidableEq, Repr

/-- The state the exam code reads and writes: the persisted blob, the bank,
the `exam` object, the exam area, the ids of the active
`setInterval(examTick, 1000)` registrations, the number of
`setTimeout(renderExamQuestion, 250)` calls that have not fired yet, and the
`disabled` flag of the button `examStart`, whose click listener is the only
caller of `startExam`. -/
structure World where
  storage : Storage
  bank : List Question
  exam : Exam
  examArea : ExamArea
  intervals : List Nat
  pendingRenders : Nat
  startDisabled : Bool
  deriving DecidableEq, Repr

/-- The initial value of `exam`. -/
def idleExam : Exam :=
  { running := false, timeLeft := 30 * 60, timerId := none, questions := [], idx := 0, correct := 0 }

/-- The page after `init` with the given bank and blob; the Start button is
enabled. -/
def initialWorld (bank : List Question) (ls : Storage) : World :=
  { storage := ls, bank := bank, exam := idleExam, examArea := ExamArea.blank,
    intervals := [], pendingRenders := 0, startDisabled := false }

/-- `if (exam.timerId) clearInterval(exam.timerId)`: the id `0` is falsy. -/
def clearExamInterval (timerId : Option Nat) (intervals : List Nat) : List Nat :=
  match timerId with
  | some id => if id ≠ 0 then intervals.filter (fun x => x ≠ id) else intervals
  | none => intervals

/-- `endExam()`. -/
def endExam (w : World) : World :=
  if !w.exam.running then w
  else
    { w with
      exam := { w.exam with running := false, timerId := none }
      intervals := clearExamInterval w.exam.timerId w.intervals
      examArea := ExamArea.finished w.exam.correct (roundPct w.exam.correct 40)
      startDisabled := false }

/-- `examTick()`, one firing of the countdown interval. -/
def examTick (w : World) : World :=
  let w := { w with exam := { w.exam with timeLeft := w.exam.timeLeft - 1 } }
  if w.exam.timeLeft ≤ 0 then endExam w else w

/-- `renderExamQuestion()`: ends the exam when no question is left, else
renders question `exam.idx` with fresh, unlocked click handlers. -/
def renderExamQuestion (w : World) : World :=
  if w.exam.idx ≥ w.exam.questions.length then endExam w
  else
    match w.exam.questions[w.exam.idx]? with
    | some qObj => { w with examArea := ExamArea.question qObj false }
    | none => w

/-- The `onAnswered` callback that `renderExamQuestion` hands to
`renderQuestion`. -/
def examOnAnswered (now : Int) (correct : Bool) (theme : String) (w : World) : World :=
  let w := { w with storage := logAnswer now theme correct w.storage }
  let w := if correct then { w with exam := { w.exam with correct := w.exam.correct + 1 } } else w
  let w := { w with exam := { w.exam with idx := w.exam.idx + 1 } }
  { w with pendingRenders := w.pendingRenders + 1 }

/-- A click on option button `i` of the question rendered in the exam area
(the click handler of `renderQuestion`): ignored when the question is locked,
else it locks the question and calls `onAnswered(i === qObj.a, qObj.theme)`.
Buttons exist for the indices of `qObj.opts` only. -/
def clickExamOption (now : Int) (i : Nat) (w : World) : World :=
  match w.examArea with
  | ExamArea.question qObj false =>
    if i < qObj.opts.length then
      let correct : Bool := decide ((i : Int) = qObj.a)
      examOnAnswered now correct qObj.theme { w with examArea := ExamArea.question qObj true }
    else w
  | _ => w

/-- The firing of one pending `setTimeout(renderExamQuestion, 250)`. -/
def fireRender (w : World) : World :=
  if w.pendingRenders = 0 then w
  else renderExamQuestion { w with pendingRenders := w.pendingRenders - 1 }

/-- The statement `[arr[i], arr[j]] = [arr[j], arr[i]]` for indices inside
the array. -/
def swap {α : Type} (arr : List α) (i j : Nat) : List α :=
  match arr[i]?, arr[j]? with
  | some x, some y => (arr.set i y).set j x
  | _, _ => arr

/-- The loop of `shuffle` from index `i` down to `1`; `draws i` is the value
of `Math.floor(Math.random() * (i + 1))` drawn at index `i`. -/
def shuffleFrom {α : Type} (draws : Nat → Nat) : Nat → List α → List α
  | 0, arr => arr
  | i + 1, arr => shuffleFrom draws i (swap arr (i + 1) (draws (i + 1)))

/-- `shuffle(arr)`. -/
def shuffle {α : Type} (draws : Nat → Nat) (arr : List α) : List α :=
  shuffleFrom draws (arr.length - 1) arr

/-- `startExam()`; `tid` is the id that `setInterval` returns. -/
def startExam (draws : Nat → Nat) (tid : Nat) (w : World) : World :=
  if w.bank.length = 0 then w
  else
    let w := { w with exam := { w.exam with
      running := true, timeLeft := 30 * 60, idx := 0, correct := 0,
      questions := (shuffle draws w.bank).take 40 } }
    let w := { w with startDisabled := true }
    let w := renderExamQuestion w
    { w with exam := { w.exam with timerId := some tid }, intervals := w.intervals ++ [tid] }

/-- `resetExam()`. -/
def resetExam (w : World) : World :=
  { w with
    intervals := clearExamInterval w.exam.timerId w.intervals
    exam := idleExam
    examArea := ExamArea.blank
    startDisabled := false }

/-- A click on the button `examStart`: a disabled button fires no click
event, an enabled one runs its listener `startExam`. -/
def clickStart (draws : Nat → Nat) (tid : Nat) (w : World) : World :=
  if w.startDisabled then w else startExam draws tid w

/-- One round of an exam: `ticks` firings of the countdown, then a click on
option `sel` at clock reading `now`, then the deferred
`renderExamQuestion`. -/
structure AnswerRound where
  ticks : Nat
  now : Int
  sel : Nat
  deriving DecidableEq, Repr

/-- `n` firings of the countdown interval. -/
def examTicks : Nat → World → World
  | 0, w => w
  | n + 1, w => examTicks n (examTick w)

/-- The rounds of an exam played in order. -/
def playRounds : List AnswerRound → World → World
  | [], w => w
  | r :: rest, w => playRounds rest (fireRender (clickExamOption r.now r.sel (examTicks r.ticks w)))

/-- The number of positions at which the selected option is the question's
correct option. -/
def countMatches : List Question → List Nat → Nat
  | q :: qs, sel :: sels => (if (sel : Int) = q.a then 1 else 0) + countMatches qs sels
  | _, _ => 0

/-- A sample question whose correct option is `a`. -/
def demoQuestion (a : Int) : Question :=
  { theme := "Reasoning", q := "Which?", opts := ["A", "B", "C", "D"], a := a, exp := "" }

/-- A sample bank of three questions. -/
def demoBank : List Question := [demoQuestion 0, demoQuestion 1, demoQuestion 2]

/-- Draws `j = i` at every index: the shuffle leaves the order as it is. -/
def demoDraws : Nat → Nat := fun i => i

/-- The sample bank's exam right after `startExam` on the freshly loaded
page. -/
def demoStarted : World := startExam demoDraws 1 (initialWorld demoBank none)

/-- The sample bank's exam one second before the time runs out (the state
after 1799 ticks). -/
def demoLateExam : World :=
  { demoStarted with exam := { demoStarted.exam with timeLeft := 1 } }

/-- The sample exam after `startExam` has run a second time, on the running
exam, with the next interval id. -/
def demoTwiceStarted : World := startExam demoDraws 2 demoStarted

/-- A sample bank of 40 questions; question `i` has correct option `i % 4`. -/
def demoBank40 : List Question := (List.range 40).map (fun i => demoQuestion ((i % 4 : Nat) : Int))

/-- The 40-question sample exam right after `startExam` on the freshly loaded
page. -/
def demoStarted40 : World := startExam demoDraws 1 (initialWorld demoBank40 none)

/-- Forty rounds on the 40-question sample exam of which exactly the first 23
select the correct option. -/
def demoRounds23 : List AnswerRound :=
  (List.range 40).map (fun (i : Nat) =>
    { ticks := 1, now := 1000 * (i : Int), sel := if i < 23 then i % 4 else (i + 1) % 4 })

/-- Forty rounds, one tick before each answer, round `i` selecting `i % 3`. -/
def demoRounds40 : List AnswerRound :=
  (List.range 40).map (fun (i : Nat) => { ticks := 1, now := 1000 * (i : Int), sel := i % 3 })

/-! ## The study timer -/

/-- The global `timerState`. -/
structure TimerState where
  running : Bool
  startedAt : Option Int
  accumulated : Int
  tickId : Option Nat
  deriving DecidableEq, Repr

/-- The initial value of `timerState`. -/
def idleTimer : TimerState :=
  { running := false, startedAt := none, accumulated := 0, tickId := none }

/-- `timerStart()` at clock reading `now`; `tid` is the id of the display
interval. -/
def timerStart (now : Int) (tid : Nat) (ts : TimerState) : TimerState :=
  if ts.running then ts
  else { ts with running := true, startedAt := some now, tickId := some tid }

/-- `timerPause()` at clock reading `now`; in `now - startedAt` a `null`
counts as `0`.  `Int` division by `1000` is the floor. -/
def timerPause (now : Int) (ts : TimerState) : TimerState :=
  if !ts.running then ts
  else
    { running := false, startedAt := none,
      accumulated := ts.accumulated + (now - ts.startedAt.getD 0) / 1000,
      tickId := none }

/-- `timerStopAndSave()` with `day` the selected training day. -/
def timerStopAndSave (now : Int) (day : String) (ts : TimerState) (ls : Storage) :
    TimerState × Storage :=
  let ts := if ts.running then timerPause now ts else ts
  let seconds := ts.accumulated
  let ls := if seconds > 0 then addTimeToDay now day seconds ls else ls
  ({ ts with accumulated := 0 }, ls)

/-- A start at `startAt` (interval id `tid`) followed by a pause at
`pauseAt`. -/
structure Interval where
  startAt : Int
  tid : Nat
  pauseAt : Int
  deriving DecidableEq, Repr

/-- An alternating schedule of `timerStart` / `timerPause` calls. -/
def runSchedule : List Interval → TimerState → TimerState
  | [], ts => ts
  | iv :: rest, ts => runSchedule rest (timerPause iv.pauseAt (timerStart iv.startAt iv.tid ts))

/-! ## Per-theme statistics -/

/-- A value of the map `byTheme`. -/
structure ThemeCount where
  total : Nat
  correct : Nat
  deriving DecidableEq, Repr

/-- An element of the array `computeThemeStats` returns. -/
structure ThemeStat where
  theme : String
  total : Nat
  correct : Nat
  pct : Nat
  deriving DecidableEq, Repr

/-- `lastNDaysAnswers(nDays)` at clock reading `now`. -/
def lastNDaysAnswers (now : Int) (nDays : Int) (ls : Storage) : List AnswerEvent :=
  let store := loadStore ls
  let cutoff := now - nDays * 24 * 60 * 60 * 1000
  store.answers.filter (fun a => decide (a.t ≥ cutoff))

/-- The body of `ans.forEach` in `computeThemeStats`. -/
def tally (byTheme : Dict ThemeCount) (a : AnswerEvent) : Dict ThemeCount :=
  let o := (byTheme.get a.theme).getD { total := 0, correct := 0 }
  let o := { o with total := o.total + 1 }
  let o := { o with correct := o.correct + (if a.correct then 1 else 0) }
  byTheme.set a.theme o

/-- The body of `THEMES.forEach` in `computeThemeStats`. -/
def ensureTheme (byTheme : Dict ThemeCount) (t : String) : Dict ThemeCount :=
  if (byTheme.get t).isSome then byTheme else byTheme.set t { total := 0, correct := 0 }

/-- The map `byTheme` after both loops. -/
def themeTable (themes : List String) (ans : List AnswerEvent) : Dict ThemeCount :=
  themes.foldl ensureTheme (ans.foldl tally [])

/-- The callback of `.map` in `computeThemeStats`. -/
def toStat (entry : String × ThemeCount) : ThemeStat :=
  { theme := entry.1, total := entry.2.total, correct := entry.2.correct,
    pct := if entry.2.total ≠ 0 then roundPct entry.2.correct entry.2.total else 0 }

/-- `computeThemeStats(nDays)` at clock reading `now`, for the global `THEMES`
list `themes`.  `cmp` is `String.prototype.localeCompare` in the host's
locale; the sort is stable. -/
def computeThemeStats (cmp : String → String → Int) (themes : List String) (now : Int)
    (nDays : Int) (ls : Storage) : List ThemeStat :=
  let ans := lastNDaysAnswers now nDays ls
  let byTheme := themeTable themes ans
  (byTheme.map toStat).insertionSort (fun a b => cmp a.theme b.theme ≤ 0)

/-- The in-window events of theme `t`: those `computeThemeStats` counts. -/
def eventsInWindow (now : Int) (nDays : Int) (ls : Storage) (t : String) : List AnswerEvent :=
  (loadStore ls).answers.filter
    (fun a => decide (a.theme = t) && decide (a.t ≥ now - nDays * 86400000))

/-- Lexicographic comparison of code point lists: negative, zero or
positive. -/
def compareCodes : List Nat → List Nat → Int
  | [], [] => 0
  | [], _ :: _ => -1
  | _ :: _, [] => 1
  | x :: xs, y :: ys => if x < y then -1 else if y < x then 1 else compareCodes xs ys

/-- A comparison of strings by code points, standing for `localeCompare`. -/
def demoCompare (a b : String) : Int :=
  compareCodes (a.toList.map Char.toNat) (b.toList.map Char.toNat)

/-- A sample blob: 40 answers on one theme inside the window at clock reading
`700000000`, the first 23 of them correct. -/
def demoLog40 : Storage :=
  some { days := [],
         answers := (List.range 40).map (fun (i : Nat) =>
           ({ t := 650000000 + (i : Int), theme := "Reasoning", correct := decide (i < 23) }
             : AnswerEvent)) }

/-- A sample blob: three answers on one theme inside the window at clock
reading `700000000`, two of them correct. -/
def demoLogThirds : Storage :=
  some { days := [],
         answers := [⟨650000000, "Numeracy", true⟩, ⟨650000001, "Numeracy", false⟩,
                     ⟨650000002, "Numeracy", true⟩] }

/-- A sample blob: four logged answers, the first older than a week at clock
reading `700000000`. -/
def demoLog : Storage :=
  some { days := [],
         answers := [⟨1000, "Reasoning", true⟩, ⟨600000000, "Reasoning", true⟩,
                     ⟨650000000, "Reasoning", false⟩, ⟨660000000, "Numeracy", false⟩] }

/-! ## Practice mode -/

/-- The globals `practicePool` and `practiceIndex`. -/
structure Practice where
  pool : List Question
  index : Nat
  deriving DecidableEq, Repr

/-- The callback of `BANK.filter` in `buildPracticePool`:
`theme === "ALL" ? true : q.theme === theme`. -/
def matchesTheme (theme : String) (q : Question) : Bool :=
  if theme = "ALL" then true else decide (q.theme = theme)

/-- `buildPracticePool()`; `theme` is the value of the select `practiceTheme`
and `shuffleOn` says whether the select `practiceShuffle` reads `"ON"`. -/
def buildPracticePool (draws : Nat → Nat) (theme : String) (shuffleOn : Bool)
    (bank : List Question) : Practice :=
  let practicePool := bank.filter (matchesTheme theme)
  let practicePool := if shuffleOn then shuffle draws practicePool else practicePool
  { pool := practicePool, index := 0 }

/-- `nextPracticeQuestion()`: the globals afterwards and the question handed
to `renderQuestion` (`none` is `undefined`, and no question at all when the
bank is empty). -/
def nextPracticeQuestion (draws : Nat → Nat) (theme : String) (shuffleOn : Bool)
    (bank : List Question) (p : Practice) : Practice × Option Question :=
  if bank.length = 0 then (p, none)
  else
    let p := if p.pool.length = 0 || decide (p.index ≥ p.pool.length)
      then buildPracticePool draws theme shuffleOn bank else p
    ({ p with index := p.index + 1 }, p.pool[p.index]?)

/-- The globals after `k` calls of `nextPracticeQuestion`; call number `i`
(from 0) draws `drawsAt i` if it shuffles. -/
def practiceCalls (drawsAt : Nat → Nat → Nat) (theme : String) (shuffleOn : Bool)
    (bank : List Question) : Nat → Practice → Practice
  | 0, p => p
  | k + 1, p =>
    (nextPracticeQuestion (drawsAt k) theme shuffleOn bank
      (practiceCalls drawsAt theme shuffleOn bank k p)).1

/-- The question presented by call number `k` (from 0) of
`nextPracticeQuestion` after the globals `p`. -/
def presented (drawsAt : Nat → Nat → Nat) (theme : String) (shuffleOn : Bool)
    (bank : List Question) (p : Practice) (k : Nat) : Option Question :=
  (nextPracticeQuestion (drawsAt k) theme shuffleOn bank
    (practiceCalls drawsAt theme shuffleOn bank k p)).2

/-- The pool of the practice session in the words of its description: the
sub-sequence of the bank of the questions whose theme equals `f`, and the
whole bank when `f` is `"ALL"`. -/
def themePool (f : String) (bank : List Question) : List Question :=
  if f = "ALL" then bank else bank.filter (fun q => decide (q.theme = f))

/-- A sample question of the given theme and text. -/
def demoThemed (theme text : String) : Question :=
  { theme := theme, q := text, opts := ["A", "B", "C", "D"], a := 0, exp := "" }

/-- A sample bank with three themes: two Numeracy questions, two Reasoning
questions and one Verbal question, interleaved. -/
def demoMixedBank : List Question :=
  [demoThemed "Numeracy" "N1", demoThemed "Reasoning" "R1", demoThemed "Numeracy" "N2",
   demoThemed "Verbal" "V1", demoThemed "Reasoning" "R2"]

/-! ## Loading the bank -/

/-- A record of `BANK` as `loadBank` builds it.  `theme` is
`q.theme || "Problem solving"`, kept as loaded: any truthy value, a string in
a bank that follows the input format. -/
structure BankRecord where
  theme : JVal
  q : String
  opts : List String
  a : ℚ
  exp : String

namespace Json

/-- The test `typeof x === "string"`. -/
def isStr : Option JVal → Bool
  | some (JVal.str _) => true
  | _ => false

/-- The test `Array.isArray(x) && x.length === 4`. -/
def isArrayOf4 : Option JVal → Bool
  | some (JVal.arr items _) => items.length == 4
  | _ => false

/-- A property read that yields `undefined` where it would throw; used
behind the guard `q &&`. -/
def readProp (v : JVal) (k : String) : Option JVal :=
  match getProp v k with
  | Except.ok x => x
  | Except.error _ => none

/-- The callback of `data.filter` in `loadBank`: `q && typeof q.q === "string"
&& Array.isArray(q.opts) && q.opts.length === 4 && typeof q.a === "number"`. -/
def keepsQuestion (q : JVal) : Bool :=
  truthy (some q) && isStr (readProp q "q") && isArrayOf4 (readProp q "opts") &&
    isNum (readProp q "a")

/-- The callback of `.map` in `loadBank` on a record that passed the filter;
`str` is the conversion `String(x)` and `trim` is `String.prototype.trim`.
`(q.exp || "").trim()` trims a string `exp` (the empty one included), trims
`""` when `exp` is otherwise falsy, and throws when `exp` is truthy and not a
string. -/
def toBankRecord (str : JVal → String) (trim : String → String) (q : JVal) :
    Except Unit BankRecord :=
  match readProp q "q", readProp q "opts", readProp q "a" with
  | some (JVal.str text), some (JVal.arr items _), some (JVal.num a) =>
    let theme := if truthy (readProp q "theme") then (readProp q "theme").getD JVal.null
      else JVal.str "Problem solving"
    match readProp q "exp" with
    | some (JVal.str e) =>
      Except.ok { theme := theme, q := trim text, opts := items.map str, a := a, exp := trim e }
    | other =>
      if truthy other then Except.error ()
      else Except.ok { theme := theme, q := trim text, opts := items.map str, a := a,
                       exp := trim "" }
  | _, _, _ => Except.error ()

/-- The call `.map(q => ...)` of `loadBank`: the first record on which the
callback throws aborts the whole call. -/
def convertAll (str : JVal → String) (trim : String → String) :
    List JVal → Except Unit (List BankRecord)
  | [] => Except.ok []
  | q :: rest =>
    match toBankRecord str trim q with
    | Except.error e => Except.error e
    | Except.ok r =>
      match convertAll str trim rest with
      | Except.error e => Except.error e
      | Except.ok rs => Except.ok (r :: rs)

/-- The value assigned to `BANK` by `loadBank()` when the fetched text parses
to `data`; `Except.error` is a thrown exception (`data` is not an array, or
the `.map` callback throws), which leaves `BANK` as it was. -/
def loadBank (str : JVal → String) (trim : String → String) (data : JVal) :
    Except Unit (List BankRecord) :=
  match data with
  | JVal.arr items _ => convertAll str trim (items.filter keepsQuestion)
  | _ => Except.error ()

/-- The own named properties of a value: the fields of an object, the named
properties of an array; a primitive has none. -/
def ownFields : JVal → Option (List (String × JVal))
  | JVal.obj fields => some fields
  | JVal.arr _ props => some props
  | _ => none

/-- The records the bank format asks for, in the words of the format: a value
with a string `q`, an array `opts` of exactly 4 elements and a number `a`
(any number). -/
def questionShaped (q : JVal) : Bool :=
  match ownFields q with
  | none => false
  | some fields =>
    (match Dict.get fields "q" with
      | some (JVal.str _) => true
      | _ => false) &&
    (match Dict.get fields "opts" with
      | some (JVal.arr items _) => decide (items.length = 4)
      | _ => false) &&
    (match Dict.get fields "a" with
      | some (JVal.num _) => true
      | _ => false)

/-- The number stored in the field `a` of an input record (0 if there is
none). -/
def answerOf (q : JVal) : ℚ :=
  match ownFields q with
  | none => 0
  | some fields =>
    match Dict.get fields "a" with
    | some (JVal.num a) => a
    | _ => 0

/-- A stand-in for `String(x)`, right on strings, the only option values of
the sample bank file. -/
def demoStr : JVal → String
  | JVal.str s => s
  | _ => ""

/-- A sample bank file: a well-formed record with `a = 1`, a record with
`a = 7`, a record with three options, a record without `q`, a record with
`a = 3/2` and a record with `a = -1`. -/
def demoBankFile : JVal :=
  JVal.arr
    [ JVal.obj [("theme", JVal.str "Numeracy"), ("q", JVal.str "2 + 2?"),
        ("opts", JVal.arr [JVal.str "3", JVal.str "4", JVal.str "5", JVal.str "6"] []),
        ("a", JVal.num 1), ("exp", JVal.str "sum")],
      JVal.obj [("q", JVal.str "Which?"),
        ("opts", JVal.arr [JVal.str "A", JVal.str "B", JVal.str "C", JVal.str "D"] []),
        ("a", JVal.num 7)],
      JVal.obj [("q", JVal.str "Short?"),
        ("opts", JVal.arr [JVal.str "A", JVal.str "B", JVal.str "C"] []),
        ("a", JVal.num 0)],
      JVal.obj [("opts", JVal.arr [JVal.str "A", JVal.str "B", JVal.str "C", JVal.str "D"] []),
        ("a", JVal.num 2)],
      JVal.obj [("theme", JVal.str "Verbal"), ("q", JVal.str "Half?"),
        ("opts", JVal.arr [JVal.str "A", JVal.str "B", JVal.str "C", JVal.str "D"] []),
        ("a", JVal.num (3 / 2))],
      JVal.obj [("theme", JVal.str "Verbal"), ("q", JVal.str "Below?"),
        ("opts", JVal.arr [JVal.str "A", JVal.str "B", JVal.str "C", JVal.str "D"] []),
        ("a", JVal.num (-1))] ] []

/-- The records `loadBank` keeps of the sample bank file. -/
def demoLoaded : List BankRecord :=
  [ { theme := JVal.str "Numeracy", q := "2 + 2?", opts := ["3", "4", "5", "6"], a := 1,
      exp := "sum" },
    { theme := JVal.str "Problem solving", q := "Which?", opts := ["A", "B", "C", "D"], a := 7,
      exp := "" },
    { theme := JVal.str "Verbal", q := "Half?", opts := ["A", "B", "C", "D"], a := 3 / 2,
      exp := "" },
    { theme := JVal.str "Verbal", q := "Below?", opts := ["A", "B", "C", "D"], a := -1,
      exp := "" } ]

end Json

/-! ## Comparisons for sorting -/

/-- Canonical decomposition of one code point, for U+00E9 only: `e` followed
by the combining acute accent. -/
def decompose (c : Nat) : List Nat :=
  if c = 0xE9 then [0x65, 0x301] else [c]

/-- A comparison that, as `localeCompare` must, returns `0` for canonically
equivalent strings (here: strings that differ in the form of U+00E9). -/
def demoCollate (a b : String) : Int :=
  compareCodes ((a.toList.map Char.toNat).map decompose).flatten
    ((b.toList.map Char.toNat).map decompose).flatten

/-! ## The states of the exam page -/

/-- The worlds the page can reach: it opens with some bank and blob; the bank
may be reloaded and the blob rewritten by other features; the user clicks
Start (`setInterval` hands out a non-zero id, the draws are in range), the
countdown fires while an interval is active, the user clicks an option of the
displayed question, a pending `renderExamQuestion` fires, the user resets. -/
inductive Reachable : World → Prop where
  | init (bank : List Question) (ls : Storage) : Reachable (initialWorld bank ls)
  | reload (w : World) (bank : List Question) : Reachable w → Reachable { w with bank := bank }
  | store (w : World) (ls : Storage) : Reachable w → Reachable { w with storage := ls }
  | start (w : World) (draws : Nat → Nat) (tid : Nat) :
      Reachable w → (∀ i, draws i ≤ i) → tid ≠ 0 → Reachable (clickStart draws tid w)
  | tick (w : World) : Reachable w → w.intervals ≠ [] → Reachable (examTick w)
  | answer (w : World) (now : Int) (i : Nat) : Reachable w → Reachable (clickExamOption now i w)
  | render (w : World) : Reachable w → Reachable (fireRender w)
  | reset (w : World) : Reachable w → Reachable (resetExam w)

/-- The invariant of the exam page. -/
structure ExamInv (w : World) : Prop where
  correct_le : w.exam.correct ≤ w.exam.idx
  idx_le : w.exam.idx ≤ w.exam.questions.length
  length_le : w.exam.questions.length ≤ 40
  time_nonneg : 0 ≤ w.exam.timeLeft
  time_le : w.exam.timeLeft ≤ 1800
  running_time : w.exam.running = true → 1 ≤ w.exam.timeLeft
  running_timer : w.exam.running = true →
    ∃ tid, tid ≠ 0 ∧ w.exam.timerId = some tid ∧ w.intervals = [tid]
  idle_timer : w.exam.running = false → w.intervals = []
  running_start : w.exam.running = true → w.startDisabled = true
  shown_lt : ∀ q, w.examArea = ExamArea.question q false → w.exam.idx < w.exam.questions.length
  card : ∀ c p, w.examArea = ExamArea.finished c p → c ≤ 40 ∧ p = roundPct c 40

/-! ## Lemmas on maps -/

namespace Dict

theorem get_set_self {β : Type} (m : Dict β) (k : String) (v : β) :
    (m.set k v).get k = some v := by
  induction m with
  | nil => simp [set, get]
  | cons hd tl ih =>
    obtain ⟨k', v'⟩ := hd
    by_cases h : k' = k
    · simp [set, get, h]
    · simp [set, get, h, ih]

theorem get_set_other {β : Type} (m : Dict β) (k k2 : String) (v : β) (h : k2 ≠ k) :
    (m.set k v).get k2 = m.get k2 := by
  induction m with
  | nil =>
    have h' : ¬ k = k2 := fun e => h e.symm
    simp [set, get, h']
  | cons hd tl ih =>
    obtain ⟨k', v'⟩ := hd
    by_cases hk : k' = k
    · subst hk
      have h' : ¬ k' = k2 := fun e => h e.symm
      simp [set, get, h']
    · by_cases hk2 : k' = k2
      · subst hk2
        simp [set, get, hk]
      · simp [set, get, hk, hk2, ih]

theorem mem_set {β : Type} (m : Dict β) (k : String) (v : β) (kv : String × β)
    (h : kv ∈ m.set k v) : kv = (k, v) ∨ kv ∈ m := by
  induction m with
  | nil => simp [set] at h; exact Or.inl h
  | cons hd tl ih =>
    obtain ⟨k', v'⟩ := hd
    by_cases hk : k' = k
    · simp [set, hk] at h
      rcases h with h | h
      · exact Or.inl h
      · exact Or.inr (List.mem_cons_of_mem _ h)
    · simp [set, hk] at h
      rcases h with h | h
      · exact Or.inr (by rw [h]; exact List.mem_cons_self _ _)
      · rcases ih h with h2 | h2
        · exact Or.inl h2
        · exact Or.inr (List.mem_cons_of_mem _ h2)

theorem get_isSome_iff {β : Type} (m : Dict β) (k : String) :
    (m.get k).isSome = true ↔ k ∈ m.keys := by
  induction m with
  | nil => simp [get, keys]
  | cons hd tl ih =>
    obtain ⟨k', v'⟩ := hd
    by_cases hk : k' = k
    · simp [get, keys, hk]
    · have hk' : ¬ k = k' := fun e => hk e.symm
      simp only [get, hk, if_false, ih, keys, List.map_cons, List.mem_cons, hk', false_or]

theorem keys_set {β : Type} (m : Dict β) (k : String) (v : β) :
    (m.set k v).keys = if k ∈ m.keys then m.keys else m.keys ++ [k] := by
  induction m with
  | nil => simp [set, keys]
  | cons hd tl ih =>
    obtain ⟨k', v'⟩ := hd
    by_cases hk : k' = k
    · simp [set, keys, hk]
    · have hk' : ¬ k = k' := fun e => hk e.symm
      simp only [keys] at ih
      simp only [set, hk, if_false, keys, List.map_cons, List.mem_cons, hk', false_or, ih]
      split <;> simp

end Dict

/-! ## The progress store: time accumulation and the answer log -/

theorem loadStore_saveStore (st : Store) : loadStore (saveStore st) = st := rfl

theorem addTimeToDay_days (now : Int) (d : String) (delta : Int) (ls : Storage) :
    (loadStore (addTimeToDay now d delta ls)).days =
      (ensureDay now (loadStore ls) d).1.days.set d
        { seconds := max 0 ((ensureDay now (loadStore ls) d).2.seconds + delta),
          sessions := (ensureDay now (loadStore ls) d).2.sessions + 1,
          updatedAt := now } := by
  simp [addTimeToDay, loadStore_saveStore]

theorem ensureDay_days_mem (now : Int) (st : Store) (d : String) (kv : String × DayRecord)
    (h : kv ∈ (ensureDay now st d).1.days) :
    kv ∈ st.days ∨ kv.2.seconds = 0 := by
  unfold ensureDay at h
  cases hg : st.days.get d with
  | none =>
    rw [hg] at h
    rcases Dict.mem_set _ _ _ _ h with h2 | h2
    · exact Or.inr (by rw [h2])
    · exact Or.inl h2
  | some day =>
    rw [hg] at h
    exact Or.inl h

theorem addTimeToDay_secondsNonneg (now : Int) (d : String) (delta : Int) (ls : Storage)
    (h : secondsNonneg ls) : secondsNonneg (addTimeToDay now d delta ls) := by
  intro kv hkv
  rw [addTimeToDay_days] at hkv
  rcases Dict.mem_set _ _ _ _ hkv with h2 | h2
  · rw [h2]
    exact le_max_left _ _
  · rcases ensureDay_days_mem _ _ _ _ h2 with h3 | h3
    · exact h kv h3
    · rw [h3]

/-- C1. Non-negative accumulation: from any store whose day records all have
`seconds >= 0` (the empty store included), any finite sequence of
`addTimeToDay(day, delta)` calls with arbitrary integer deltas on arbitrary
days leaves every day record with `seconds >= 0`. -/
theorem addTimeCalls_seconds_nonneg (calls : List (Int × String × Int)) (ls : Storage)
    (h : secondsNonneg ls) : secondsNonneg (addTimeCalls calls ls) := by
  induction calls generalizing ls with
  | nil => exact h
  | cons c rest ih =>
    exact ih _ (addTimeToDay_secondsNonneg c.1 c.2.1 c.2.2 ls h)

theorem addTimeCalls_seconds_nonneg_witness :
    secondsNonneg (some { days := [("2024-05-01", ⟨10, 1, 0⟩)], answers := [] }) ∧
    secondsNonneg (addTimeCalls [(5, "2024-05-01", -30), (6, "2024-05-02", -1), (7, "2024-05-01", 4)]
      (some { days := [("2024-05-01", ⟨10, 1, 0⟩)], answers := [] })) :=
  ⟨by simp [secondsNonneg, loadStore],
   addTimeCalls_seconds_nonneg _ _ (by simp [secondsNonneg, loadStore])⟩

theorem logAnswer_answers (now : Int) (theme : String) (correct : Bool) (ls : Storage) :
    (loadStore (logAnswer now theme correct ls)).answers =
      ((loadStore ls).answers ++ [eventOf (now, theme, correct)]).drop
        ((loadStore ls).answers.length + 1 - 10000) := by
  simp only [logAnswer, loadStore_saveStore, List.length_append, List.length_singleton]
  split
  · rfl
  · rename_i h
    have : (loadStore ls).answers.length + 1 - 10000 = 0 := by omega
    rw [this, List.drop_zero]
    rfl

theorem logAnswerCalls_answers (calls : List (Int × String × Bool)) (ls : Storage)
    (h : (loadStore ls).answers.length ≤ 10000) :
    (loadStore (logAnswerCalls calls ls)).answers =
      ((loadStore ls).answers ++ calls.map eventOf).drop
        ((loadStore ls).answers.length + calls.length - 10000) := by
  induction calls generalizing ls with
  | nil =>
    have : (loadStore ls).answers.length + 0 - 10000 = 0 := by omega
    simp only [logAnswerCalls, List.foldl_nil, List.map_nil, List.append_nil, List.length_nil, this,
      List.drop_zero]
  | cons c rest ih =>
    have hstep : (loadStore (logAnswer c.1 c.2.1 c.2.2 ls)).answers =
        ((loadStore ls).answers ++ [eventOf c]).drop ((loadStore ls).answers.length + 1 - 10000) :=
      logAnswer_answers c.1 c.2.1 c.2.2 ls
    have hlen2 : (loadStore (logAnswer c.1 c.2.1 c.2.2 ls)).answers.length =
        (loadStore ls).answers.length + 1 - ((loadStore ls).answers.length + 1 - 10000) := by
      rw [hstep]
      simp only [List.length_drop, List.length_append, List.length_singleton]
    have hlen : (loadStore (logAnswer c.1 c.2.1 c.2.2 ls)).answers.length ≤ 10000 := by
      rw [hlen2]
      omega
    have hle : (loadStore ls).answers.length + 1 - 10000 ≤
        ((loadStore ls).answers ++ [eventOf c]).length := by
      simp only [List.length_append, List.length_singleton]
      omega
    have e1 : (loadStore (logAnswer c.1 c.2.1 c.2.2 ls)).answers ++ rest.map eventOf =
        ((loadStore ls).answers ++ (c :: rest).map eventOf).drop
          ((loadStore ls).answers.length + 1 - 10000) := by
      rw [hstep, ← List.drop_append_of_le_length hle]
      simp only [List.map_cons, List.append_assoc, List.singleton_append]
    have hfold : logAnswerCalls (c :: rest) ls =
        logAnswerCalls rest (logAnswer c.1 c.2.1 c.2.2 ls) := rfl
    rw [hfold, ih (logAnswer c.1 c.2.1 c.2.2 ls) hlen, e1, List.drop_drop, hlen2]
    refine congrArg₂ List.drop ?_ rfl
    simp only [List.length_cons]
    omega

/-- C2. Answer log cap: one `logAnswer` turns the log `L` into the last
`min(|L|+1, 10000)` elements of `L` followed by the new event, in order; and
`n` calls from the empty store leave the last `min(n, 10000)` events, oldest
first (after 10050 calls: events 51 to 10050). -/
theorem logAnswer_keeps_last_10000 (now : Int) (theme : String) (correct : Bool) (ls : Storage)
    (calls : List (Int × String × Bool)) :
    (loadStore (logAnswer now theme correct ls)).answers =
      ((loadStore ls).answers ++ [eventOf (now, theme, correct)]).drop
        (((loadStore ls).answers.length + 1) - min ((loadStore ls).answers.length + 1) 10000) ∧
    (loadStore (logAnswerCalls calls (some emptyStore))).answers =
      (calls.map eventOf).drop (calls.length - min calls.length 10000) ∧
    (loadStore (logAnswerCalls calls (some emptyStore))).answers.length = min calls.length 10000 ∧
    (calls.length = 10050 →
      (loadStore (logAnswerCalls calls (some emptyStore))).answers = (calls.map eventOf).drop 50) := by
  have hmain := logAnswerCalls_answers calls (some emptyStore) (by simp [loadStore, emptyStore])
  have hnil : (loadStore (some emptyStore)).answers = [] := rfl
  rw [hnil] at hmain
  simp only [List.nil_append, List.length_nil, Nat.zero_add] at hmain
  refine ⟨?_, ?_, ?_, ?_⟩
  · rw [logAnswer_answers]
    refine congrArg₂ List.drop ?_ rfl
    omega
  · rw [hmain]
    refine congrArg₂ List.drop ?_ rfl
    omega
  · rw [hmain]
    simp only [List.length_drop, List.length_map]
    omega
  · intro hn
    rw [hmain, hn]

/-- C10. `addTimeToDay(d, delta)` postcondition and frame: the record of `d`
gets `seconds = max(0, old seconds + delta)` and `sessions = old sessions + 1`
(old values 0 when `d` had no record), every other day reads as before, the
key set only gains `d`, and the answer log is unchanged. -/
theorem addTimeToDay_post_frame (now : Int) (d : String) (delta : Int) (ls : Storage) :
    ((loadStore (addTimeToDay now d delta ls)).days.get d).map (fun r => (r.seconds, r.sessions)) =
      some (max 0 ((((loadStore ls).days.get d).map (·.seconds)).getD 0 + delta),
            (((loadStore ls).days.get d).map (·.sessions)).getD 0 + 1) ∧
    (∀ d2, d2 ≠ d →
      (loadStore (addTimeToDay now d delta ls)).days.get d2 = (loadStore ls).days.get d2) ∧
    (loadStore (addTimeToDay now d delta ls)).days.keys =
      (if d ∈ (loadStore ls).days.keys then (loadStore ls).days.keys
       else (loadStore ls).days.keys ++ [d]) ∧
    (loadStore (addTimeToDay now d delta ls)).answers = (loadStore ls).answers := by
  have hans : (loadStore (addTimeToDay now d delta ls)).answers = (loadStore ls).answers := by
    simp only [addTimeToDay, loadStore_saveStore, ensureDay]
    cases (loadStore ls).days.get d <;> rfl
  refine ⟨?_, ?_, ?_, hans⟩
  · rw [addTimeToDay_days, Dict.get_set_self]
    unfold ensureDay
    cases (loadStore ls).days.get d <;> simp
  · intro d2 hd2
    rw [addTimeToDay_days, Dict.get_set_other _ _ _ _ hd2]
    unfold ensureDay
    cases hg : (loadStore ls).days.get d with
    | none => simp [Dict.get_set_other _ _ _ _ hd2]
    | some day => simp
  · rw [addTimeToDay_days, Dict.keys_set]
    unfold ensureDay
    cases hg : (loadStore ls).days.get d with
    | none =>
      have hnot : d ∉ (loadStore ls).days.keys := by
        intro hmem
        have := (Dict.get_isSome_iff _ _).2 hmem
        rw [hg] at this
        simp at this
      simp [Dict.keys_set, hnot]
    | some day =>
      have hmem : d ∈ (loadStore ls).days.keys := by
        apply (Dict.get_isSome_iff _ _).1
        rw [hg]; rfl
      simp [hmem]

/-! ## `loadStore` on arbitrary blobs -/

theorem Json.loadStore_obj_days (fields : List (String × JVal)) :
    Json.getProp (Json.loadStore (Blob.parsed (JVal.obj fields))) "days" =
      Except.ok (if Json.truthy (Dict.get fields "days") then Dict.get fields "days"
        else some (JVal.obj [])) := by
  have hne : ("days" : String) ≠ "answers" := by decide
  simp only [Json.loadStore, Json.loadStoreTry, Json.getProp, bind, Except.bind, pure, Except.pure]
  by_cases hd : Json.truthy (Dict.get fields "days") = true
  · by_cases ha : Json.truthy (Dict.get fields "answers") = true
    · simp [hd, ha, Json.getProp]
    · simp [hd, ha, Json.getProp, Json.setProp, Dict.get_set_other _ _ _ _ hne]
  · by_cases ha : Json.truthy (Dict.get fields "answers") = true
    · simp [hd, Json.getProp, Json.setProp, Dict.get_set_self, Dict.get_set_other _ _ _ _ hne.symm, ha]
    · simp [hd, Json.getProp, Json.setProp, Dict.get_set_self, Dict.get_set_other _ _ _ _ hne.symm,
        Dict.get_set_other _ _ _ _ hne, ha]

theorem Json.loadStore_obj_answers (fields : List (String × JVal)) :
    Json.getProp (Json.loadStore (Blob.parsed (JVal.obj fields))) "answers" =
      Except.ok (if Json.truthy (Dict.get fields "answers") then Dict.get fields "answers"
        else some (JVal.arr [] [])) := by
  have hne : ("days" : String) ≠ "answers" := by decide
  simp only [Json.loadStore, Json.loadStoreTry, Json.getProp, bind, Except.bind, pure, Except.pure]
  by_cases hd : Json.truthy (Dict.get fields "days") = true
  · by_cases ha : Json.truthy (Dict.get fields "answers") = true
    · simp [hd, ha, Json.getProp]
    · simp [hd, ha, Json.getProp, Json.setProp, Dict.get_set_self]
  · by_cases ha : Json.truthy (Dict.get fields "answers") = true
    · simp [hd, Json.getProp, Json.setProp, Dict.get_set_self, Dict.get_set_other _ _ _ _ hne.symm, ha]
    · simp [hd, Json.getProp, Json.setProp, Dict.get_set_self, Dict.get_set_other _ _ _ _ hne.symm,
        Dict.get_set_other _ _ _ _ hne, ha]

/-- The typed `loadStore` is `Json.loadStore` on blobs of the documented
schema. -/
theorem loadStore_agrees (ls : Storage) :
    Json.loadStore (persist ls) = (loadStore ls).toJVal := by
  cases ls with
  | none => rfl
  | some st =>
    simp [persist, loadStore, Store.toJVal, Json.loadStore, Json.loadStoreTry, Json.getProp,
      Dict.get, Json.truthy, bind, Except.bind, pure, Except.pure]

theorem DayRecord.toJVal_isDayRecord (r : DayRecord) : Json.isDayRecord r.toJVal = true := by
  simp [DayRecord.toJVal, Json.isDayRecord, Dict.get, Json.isNum]

/-- A store of the documented schema is structurally valid as a JSON value. -/
theorem Store.toJVal_valid (st : Store) : Json.validStore st.toJVal = true := by
  simp only [Store.toJVal, Json.validStore, Json.getProp, Dict.get, Json.isDaysMap,
    Json.isSequence, List.all_map, Bool.and_true, List.all_eq_true]
  simp only [String.reduceEq, if_true, if_false, reduceIte, Bool.and_true, List.all_eq_true,
    List.mem_map]
  rintro kv ⟨x, _, rfl⟩
  exact DayRecord.toJVal_isDayRecord x.2

/-- C3 (as amended). `loadStore` is total (it never raises); an absent or
unparseable blob, and one that parses to `null`, give the empty store; on a
blob that parses to an object a missing or falsy `days` is replaced by `{}`, a
missing or falsy `answers` by `[]`, and a truthy field is returned as stored,
so the result is structurally valid exactly when each field is missing, falsy
or already of the right shape. -/
theorem loadStore_defaults (raw : Blob) :
    ((raw = Blob.absent ∨ raw = Blob.unparseable ∨ raw = Blob.parsed JVal.null) →
      Json.loadStore raw = Json.emptyStore) ∧
    (∀ fields, raw = Blob.parsed (JVal.obj fields) →
      Json.getProp (Json.loadStore raw) "days" =
        Except.ok (if Json.truthy (Dict.get fields "days") then Dict.get fields "days"
          else some (JVal.obj [])) ∧
      Json.getProp (Json.loadStore raw) "answers" =
        Except.ok (if Json.truthy (Dict.get fields "answers") then Dict.get fields "answers"
          else some (JVal.arr [] [])) ∧
      Json.validStore (Json.loadStore raw) =
        (Json.fieldOk Json.isDaysMap (Dict.get fields "days") &&
          Json.fieldOk Json.isSequence (Dict.get fields "answers"))) := by
  constructor
  · rintro (h | h | h) <;> subst h <;> rfl
  · intro fields h
    subst h
    refine ⟨Json.loadStore_obj_days fields, Json.loadStore_obj_answers fields, ?_⟩
    unfold Json.validStore
    rw [Json.loadStore_obj_days, Json.loadStore_obj_answers]
    by_cases hd : Json.truthy (Dict.get fields "days") = true <;>
      by_cases ha : Json.truthy (Dict.get fields "answers") = true <;>
      simp [hd, ha, Json.fieldOk, Json.isDaysMap, Json.isSequence]

/-- C3 (as stated) fails: the blob `{"days": 5, "answers": "x"}` parses, and
`loadStore` returns it with `days` still `5` and `answers` still `"x"`, which
is not a structurally valid store. -/
theorem loadStore_wrong_types_kept :
    Json.getProp (Json.loadStore (Blob.parsed
      (JVal.obj [("days", JVal.num 5), ("answers", JVal.str "x")]))) "days"
      = Except.ok (some (JVal.num 5)) ∧
    Json.validStore (Json.loadStore (Blob.parsed
      (JVal.obj [("days", JVal.num 5), ("answers", JVal.str "x")]))) = false := by
  constructor
  · rfl
  · rfl

/-! ## The study timer -/

theorem timerPause_timerStart (iv : Interval) (ts : TimerState) (h : ts.running = false) :
    (timerPause iv.pauseAt (timerStart iv.startAt iv.tid ts)).running = false ∧
    (timerPause iv.pauseAt (timerStart iv.startAt iv.tid ts)).accumulated =
      ts.accumulated + (iv.pauseAt - iv.startAt) / 1000 := by
  simp [timerPause, timerStart, h]

theorem runSchedule_from (sched : List Interval) (ts : TimerState) (h : ts.running = false) :
    (runSchedule sched ts).running = false ∧
    (runSchedule sched ts).accumulated =
      ts.accumulated + (sched.map (fun iv => (iv.pauseAt - iv.startAt) / 1000)).sum := by
  induction sched generalizing ts with
  | nil => simp [runSchedule, h]
  | cons iv rest ih =>
    obtain ⟨h1, h2⟩ := timerPause_timerStart iv ts h
    obtain ⟨h3, h4⟩ := ih _ h1
    refine ⟨h3, ?_⟩
    simp only [runSchedule, h4, h2, List.map_cons, List.sum_cons]
    omega

/-- C7. Timer pause/resume accuracy: after any alternating schedule of
`timerStart` / `timerPause` calls from the initial timer state the timer is
paused and `accumulated` is the sum of `floor((p_i - s_i) / 1000)` over the
start/pause pairs, so the time between a pause and the next start is never
counted; start 0, pause 10 s, start 15 s, pause 25 s gives 20. -/
theorem runSchedule_accumulated (sched : List Interval) :
    (runSchedule sched idleTimer).running = false ∧
    (runSchedule sched idleTimer).accumulated =
      (sched.map (fun iv => (iv.pauseAt - iv.startAt) / 1000)).sum ∧
    (runSchedule [⟨0, 1, 10000⟩, ⟨15000, 2, 25000⟩] idleTimer).accumulated = 20 := by
  obtain ⟨h1, h2⟩ := runSchedule_from sched idleTimer rfl
  refine ⟨h1, ?_, by decide⟩
  rw [h2]
  simp [idleTimer]

/-! ## The exam session -/

theorem examTick_of_gt_one (w : World) (h : 1 < w.exam.timeLeft) :
    examTick w = { w with exam := { w.exam with timeLeft := w.exam.timeLeft - 1 } } := by
  have h2 : ¬ (w.exam.timeLeft - 1 ≤ 0) := by omega
  simp [examTick, h2]

theorem examTicks_of_lt (n : Nat) (w : World) (h : (n : Int) < w.exam.timeLeft) :
    examTicks n w = { w with exam := { w.exam with timeLeft := w.exam.timeLeft - n } } := by
  induction n generalizing w with
  | zero => simp [examTicks]
  | succ k ih =>
    have h1 : 1 < w.exam.timeLeft := by push_cast at h; omega
    rw [examTicks, examTick_of_gt_one w h1, ih]
    · simp only [Nat.cast_add, Nat.cast_one]
      congr 2
      omega
    · simp only
      push_cast at h
      omega

/-- The late sample exam is reached from the started one by 1799 ticks. -/
theorem demoLateExam_reachable : examTicks 1799 demoStarted = demoLateExam := by
  rw [examTicks_of_lt 1799 demoStarted (by decide)]
  rfl

/-- C5. Exam timeout: in a running exam the tick that brings `timeLeft` to 0
ends the exam (`running = false`, `timerId` cleared and its interval no longer
active, score card shown) and leaves `correct` and `idx` as they were; a tick
with `timeLeft > 1` only decrements `timeLeft` and leaves the exam running. -/
theorem examTick_timeout (w : World) (hrun : w.exam.running = true) :
    (w.exam.timeLeft = 1 →
      (examTick w).exam.running = false ∧ (examTick w).exam.timeLeft = 0 ∧
      (examTick w).exam.timerId = none ∧
      (∀ id, w.exam.timerId = some id → id ≠ 0 → id ∉ (examTick w).intervals) ∧
      (examTick w).exam.correct = w.exam.correct ∧ (examTick w).exam.idx = w.exam.idx ∧
      (examTick w).exam.questions = w.exam.questions ∧
      (examTick w).examArea = ExamArea.finished w.exam.correct (roundPct w.exam.correct 40)) ∧
    (1 < w.exam.timeLeft →
      examTick w = { w with exam := { w.exam with timeLeft := w.exam.timeLeft - 1 } } ∧
      (examTick w).exam.running = true) := by
  constructor
  · intro h1
    simp only [examTick, endExam, h1, hrun]
    refine ⟨by simp, by simp, by simp, ?_, by simp, by simp, by simp, by simp⟩
    intro id hid hne
    simp [hid, clearExamInterval, hne]
  · intro h
    rw [examTick_of_gt_one w h]
    exact ⟨rfl, hrun⟩

theorem examTick_timeout_witness :
    demoLateExam.exam.running = true ∧ demoLateExam.exam.timeLeft = 1 ∧
    demoLateExam.exam.timerId = some 1 ∧ demoLateExam.intervals = [1] ∧
    (examTick demoLateExam).exam.running = false ∧
    (examTick demoLateExam).intervals = [] :=
  ⟨by decide, by decide, by decide, by decide,
   ((examTick_timeout demoLateExam (by decide)).1 (by decide)).1, by decide⟩

theorem round_step (w : World) (r : AnswerRound) (q : Question)
    (hrun : w.exam.running = true) (hpend : w.pendingRenders = 0)
    (hshow : w.examArea = ExamArea.question q false)
    (hsel : r.sel < q.opts.length) (htime : (r.ticks : Int) < w.exam.timeLeft) :
    let w1 := fireRender (clickExamOption r.now r.sel (examTicks r.ticks w))
    w1.exam.questions = w.exam.questions ∧ w1.exam.idx = w.exam.idx + 1 ∧
    w1.exam.correct = w.exam.correct + (if (r.sel : Int) = q.a then 1 else 0) ∧
    w1.exam.timeLeft = w.exam.timeLeft - r.ticks ∧ w1.pendingRenders = 0 ∧
    (w.exam.idx + 1 < w.exam.questions.length →
      w1.exam.running = true ∧
      w.exam.questions[w.exam.idx + 1]?.map (fun q => ExamArea.question q false)
        = some w1.examArea) ∧
    (w.exam.questions.length ≤ w.exam.idx + 1 →
      w1.exam.running = false ∧
      w1.examArea = ExamArea.finished w1.exam.correct (roundPct w1.exam.correct 40)) := by
  intro w1
  have hw1 : w1 = fireRender (clickExamOption r.now r.sel (examTicks r.ticks w)) := rfl
  clear_value w1
  rw [examTicks_of_lt r.ticks w htime] at hw1
  simp only [clickExamOption, hshow, hsel, if_true, examOnAnswered, fireRender, hpend] at hw1
  by_cases hm : (r.sel : Int) = q.a
  · simp only [hm, decide_True, if_true, Nat.zero_add, one_ne_zero, if_false,
      renderExamQuestion, Nat.sub_self] at hw1
    by_cases hlast : w.exam.questions.length ≤ w.exam.idx + 1
    · simp only [ge_iff_le, hlast, if_true, endExam, hrun, Bool.not_true, Bool.false_eq_true,
        if_false] at hw1
      subst hw1
      refine ⟨rfl, rfl, by simp [hm], rfl, rfl, fun h => absurd hlast (by omega), fun _ => ⟨rfl, rfl⟩⟩
    · have hlt : w.exam.idx + 1 < w.exam.questions.length := by omega
      obtain ⟨q2, hq2⟩ : ∃ q2, w.exam.questions[w.exam.idx + 1]? = some q2 :=
        ⟨_, List.getElem?_eq_getElem hlt⟩
      simp only [ge_iff_le, hlast, if_false, hq2] at hw1
      subst hw1
      refine ⟨rfl, rfl, by simp [hm], rfl, rfl, fun _ => ⟨hrun, by simp [hq2]⟩,
        fun h => absurd h hlast⟩
  · simp only [hm, decide_False, Bool.false_eq_true, if_false, Nat.zero_add, one_ne_zero,
      renderExamQuestion, Nat.sub_self] at hw1
    by_cases hlast : w.exam.questions.length ≤ w.exam.idx + 1
    · simp only [ge_iff_le, hlast, if_true, endExam, hrun, Bool.not_true, Bool.false_eq_true,
        if_false] at hw1
      subst hw1
      refine ⟨rfl, rfl, by simp [hm], rfl, rfl, fun h => absurd hlast (by omega), fun _ => ⟨rfl, rfl⟩⟩
    · have hlt : w.exam.idx + 1 < w.exam.questions.length := by omega
      obtain ⟨q2, hq2⟩ : ∃ q2, w.exam.questions[w.exam.idx + 1]? = some q2 :=
        ⟨_, List.getElem?_eq_getElem hlt⟩
      simp only [ge_iff_le, hlast, if_false, hq2] at hw1
      subst hw1
      refine ⟨rfl, rfl, by simp [hm], rfl, rfl, fun _ => ⟨hrun, by simp [hq2]⟩,
        fun h => absurd h hlast⟩

theorem countMatches_nil_right (qs : List Question) : countMatches qs [] = 0 := by
  cases qs <;> rfl

theorem playRounds_finishes (rounds : List AnswerRound) (w : World)
    (hrun : w.exam.running = true) (hpend : w.pendingRenders = 0)
    (hshow : w.exam.questions[w.exam.idx]?.map (fun q => ExamArea.question q false)
      = some w.examArea)
    (hlen : rounds.length + w.exam.idx = w.exam.questions.length)
    (hsel : ∀ p ∈ (w.exam.questions.drop w.exam.idx).zip rounds, p.2.sel < p.1.opts.length)
    (htime : (((rounds.map (fun r => r.ticks)).sum : Nat) : Int) < w.exam.timeLeft) :
    (playRounds rounds w).exam.running = false ∧
    (playRounds rounds w).exam.correct = w.exam.correct +
      countMatches (w.exam.questions.drop w.exam.idx) (rounds.map (fun r => r.sel)) ∧
    (playRounds rounds w).examArea = ExamArea.finished (playRounds rounds w).exam.correct
      (roundPct (playRounds rounds w).exam.correct 40) ∧
    (playRounds rounds w).exam.idx = w.exam.questions.length := by
  induction rounds generalizing w with
  | nil =>
    exfalso
    simp only [List.length_nil, Nat.zero_add] at hlen
    rw [hlen] at hshow
    simp at hshow
  | cons r rest ih =>
    have hidx : w.exam.idx < w.exam.questions.length := by
      simp only [List.length_cons] at hlen
      omega
    have hdrop := List.drop_eq_getElem_cons hidx
    have hq : w.exam.questions[w.exam.idx]? = some (w.exam.questions[w.exam.idx]) :=
      List.getElem?_eq_getElem hidx
    generalize w.exam.questions[w.exam.idx] = q at hdrop hq
    rw [hq] at hshow
    simp only [Option.map_some', Option.some.injEq] at hshow
    have hselr : r.sel < q.opts.length := by
      have := hsel (q, r) (by rw [hdrop]; simp)
      exact this
    simp only [List.map_cons, List.sum_cons, Nat.cast_add] at htime
    have htr : (r.ticks : Int) < w.exam.timeLeft := by omega
    obtain ⟨s1, s2, s3, s4, s5, s6, s7⟩ := round_step w r q hrun hpend hshow.symm hselr htr
    have hplay : playRounds (r :: rest) w =
        playRounds rest (fireRender (clickExamOption r.now r.sel (examTicks r.ticks w))) := rfl
    rw [hplay, hdrop]
    simp only [List.map_cons, countMatches]
    by_cases hlast : w.exam.questions.length ≤ w.exam.idx + 1
    · have hrest : rest = [] := by
        apply List.eq_nil_of_length_eq_zero
        simp only [List.length_cons] at hlen
        omega
      subst hrest
      obtain ⟨f1, f2⟩ := s7 hlast
      simp only [playRounds, List.map_nil, countMatches_nil_right, Nat.add_zero]
      refine ⟨f1, ?_, f2, ?_⟩
      · rw [s3]
      · rw [s2]; omega
    · have hlt : w.exam.idx + 1 < w.exam.questions.length := by omega
      obtain ⟨g1, g2⟩ := s6 hlt
      have hih := ih (fireRender (clickExamOption r.now r.sel (examTicks r.ticks w))) g1 s5
        (by rw [s1, s2]; exact g2)
        (by rw [s1, s2]; simp only [List.length_cons] at hlen; omega)
        (by
          rw [s1, s2]
          intro p hp
          apply hsel p
          rw [hdrop]
          simp only [List.zip_cons_cons, List.mem_cons]
          exact Or.inr hp)
        (by rw [s4]; omega)
      obtain ⟨i1, i2, i3, i4⟩ := hih
      refine ⟨i1, ?_, i3, ?_⟩
      · rw [i2, s3, s1, s2]
        omega
      · rw [i4, s1]
theorem countMatches_all (qs : List Question) (rounds : List AnswerRound)
    (h : ∀ p ∈ qs.zip rounds, (p.2.sel : Int) = p.1.a) :
    countMatches qs (rounds.map (fun r => r.sel)) = min qs.length rounds.length := by
  induction qs generalizing rounds with
  | nil => simp [countMatches]
  | cons q qs ih =>
    cases rounds with
    | nil => simp [countMatches]
    | cons r rest =>
      have h1 : (r.sel : Int) = q.a := h (q, r) (by simp)
      have h2 := ih rest (fun p hp => h p (by simp only [List.zip_cons_cons, List.mem_cons]; exact Or.inr hp))
      simp only [List.map_cons, countMatches, h1, if_true, h2, List.length_cons]
      omega

theorem countMatches_none (qs : List Question) (rounds : List AnswerRound)
    (h : ∀ p ∈ qs.zip rounds, (p.2.sel : Int) ≠ p.1.a) :
    countMatches qs (rounds.map (fun r => r.sel)) = 0 := by
  induction qs generalizing rounds with
  | nil => simp [countMatches]
  | cons q qs ih =>
    cases rounds with
    | nil => simp [countMatches]
    | cons r rest =>
      have h1 : (r.sel : Int) ≠ q.a := h (q, r) (by simp)
      have h2 := ih rest (fun p hp => h p (by simp only [List.zip_cons_cons, List.mem_cons]; exact Or.inr hp))
      simp only [List.map_cons, countMatches, h1, if_false, h2]

/-- The exam score against exact rounding: `Math.round((c / 40) * 100)` is
`round(100 * c / 40)` for every `c <= 40` but `c = 23`, where the double
product is `57.49999999999999` and the score is 57, not 58. -/
theorem roundPct_40 (c : Nat) (hc : c ≤ 40) :
    roundPct c 40 = if c = 23 then 57 else exactPct c 40 := by
  revert c
  decide

theorem countMatches_le (qs : List Question) (sels : List Nat) :
    countMatches qs sels ≤ qs.length := by
  induction qs generalizing sels with
  | nil => simp [countMatches]
  | cons q qs ih =>
    cases sels with
    | nil => simp [countMatches]
    | cons sel sels =>
      have := ih sels
      simp only [countMatches, List.length_cons]
      split <;> omega

set_option maxRecDepth 20000 in
/-- C4 (as amended). Exam scoring: in an exam started on exactly 40 questions
(running, `idx = 0`, `correct = 0`, the first question shown unlocked), 40
rounds of answering that end before the countdown does, each a click on an
existing option followed by the deferred `renderExamQuestion`, end the exam
(`running = false`) with `correct` the number of positions where the selected
index is the question's correct index; the score card shows
`Math.round((correct / 40) * 100)` as the doubles give it, which is
`round(100 * correct / 40)` with halves rounded up for every count but 23,
where it is 57; all correct gives 40 and 100, none correct gives 0 and 0. -/
theorem exam_scoring (w : World) (rounds : List AnswerRound)
    (hrun : w.exam.running = true) (hidx : w.exam.idx = 0) (hcor : w.exam.correct = 0)
    (hlen : w.exam.questions.length = 40)
    (hshow : w.exam.questions[0]?.map (fun q => ExamArea.question q false) = some w.examArea)
    (hpend : w.pendingRenders = 0) (hrounds : rounds.length = 40)
    (hsel : ∀ p ∈ w.exam.questions.zip rounds, p.2.sel < p.1.opts.length)
    (htime : (((rounds.map (fun r => r.ticks)).sum : Nat) : Int) < w.exam.timeLeft) :
    (playRounds rounds w).exam.running = false ∧
    (playRounds rounds w).exam.idx = 40 ∧
    (playRounds rounds w).exam.correct =
      countMatches w.exam.questions (rounds.map (fun r => r.sel)) ∧
    (playRounds rounds w).examArea = ExamArea.finished (playRounds rounds w).exam.correct
      (roundPct (playRounds rounds w).exam.correct 40) ∧
    (playRounds rounds w).examArea = ExamArea.finished (playRounds rounds w).exam.correct
      (if (playRounds rounds w).exam.correct = 23 then 57
       else exactPct (playRounds rounds w).exam.correct 40) ∧
    ((∀ p ∈ w.exam.questions.zip rounds, (p.2.sel : Int) = p.1.a) →
      (playRounds rounds w).exam.correct = 40 ∧
      (playRounds rounds w).examArea = ExamArea.finished 40 100) ∧
    ((∀ p ∈ w.exam.questions.zip rounds, (p.2.sel : Int) ≠ p.1.a) →
      (playRounds rounds w).exam.correct = 0 ∧
      (playRounds rounds w).examArea = ExamArea.finished 0 0) := by
  obtain ⟨h1, h2, h3, h4⟩ := playRounds_finishes rounds w hrun hpend
    (by rw [hidx]; exact hshow) (by rw [hidx, hrounds, hlen])
    (by rw [hidx, List.drop_zero]; exact hsel) htime
  rw [hidx, List.drop_zero, hcor, Nat.zero_add] at h2
  rw [hlen] at h4
  have hc40 : (playRounds rounds w).exam.correct ≤ 40 := by
    rw [h2, ← hlen]
    exact countMatches_le _ _
  have htable : ∀ c, c ≤ 40 → roundPct c 40 = if c = 23 then 57 else exactPct c 40 := by
    decide
  refine ⟨h1, h4, h2, h3, ?_, ?_, ?_⟩
  · rw [← htable _ hc40]
    exact h3
  · intro hall
    have hc : (playRounds rounds w).exam.correct = 40 := by
      rw [h2, countMatches_all _ _ hall, hlen, hrounds]
      rfl
    refine ⟨hc, ?_⟩
    rw [h3, hc]
    have : roundPct 40 40 = 100 := by decide
    rw [this]
  · intro hnone
    have hc : (playRounds rounds w).exam.correct = 0 := by
      rw [h2, countMatches_none _ _ hnone]
    refine ⟨hc, ?_⟩
    rw [h3, hc]
    have : roundPct 0 40 = 0 := by decide
    rw [this]

set_option maxRecDepth 20000 in
theorem exam_scoring_witness :
    demoStarted40.exam.running = true ∧ demoStarted40.exam.questions.length = 40 ∧
    demoRounds40.length = 40 ∧
    (playRounds demoRounds40 demoStarted40).exam.running = false ∧
    (playRounds demoRounds40 demoStarted40).exam.correct =
      countMatches demoStarted40.exam.questions (demoRounds40.map (fun r => r.sel)) ∧
    (playRounds demoRounds40 demoStarted40).examArea = ExamArea.finished 12 30 :=
  have h := exam_scoring demoStarted40 demoRounds40 (by decide) (by decide) (by decide)
    (by decide) (by decide) (by decide) (by decide) (by decide) (by decide)
  ⟨by decide, by decide, by decide, h.1, h.2.2.1, by decide⟩

set_option maxRecDepth 20000 in
/-- C4 (as stated) fails at 23 correct answers: the 40-question sample exam
played with exactly the first 23 answers correct ends with `correct = 23` and
a score card of 57, while `round(23 / 40 * 100) = round(57.5)` is 58. -/
theorem exam_score_23_is_57 :
    (playRounds demoRounds23 demoStarted40).exam.running = false ∧
    (playRounds demoRounds23 demoStarted40).exam.correct = 23 ∧
    (playRounds demoRounds23 demoStarted40).examArea = ExamArea.finished 23 57 ∧
    exactPct 23 40 = 58 := by
  decide

/-- C6 at a failing input.  In the sample exam one second before the end the
user answers question 1 correctly, the last tick ends the exam with 1 correct
answer, the pending `renderExamQuestion` then renders question 2, and a click
on its correct option raises `correct` to 2 and `idx` to 2 although
`running = false`. -/
theorem answer_after_timeout_counts :
    (examTick (clickExamOption 1799000 0 demoLateExam)).exam.running = false ∧
    (examTick (clickExamOption 1799000 0 demoLateExam)).exam.correct = 1 ∧
    (examTick (clickExamOption 1799000 0 demoLateExam)).exam.idx = 1 ∧
    (examTick (clickExamOption 1799000 0 demoLateExam)).examArea = ExamArea.finished 1 3 ∧
    (clickExamOption 1800100 1
      (fireRender (examTick (clickExamOption 1799000 0 demoLateExam)))).exam.running = false ∧
    (clickExamOption 1800100 1
      (fireRender (examTick (clickExamOption 1799000 0 demoLateExam)))).exam.correct = 2 ∧
    (clickExamOption 1800100 1
      (fireRender (examTick (clickExamOption 1799000 0 demoLateExam)))).exam.idx = 2 := by
  decide

/-! ## Bounds on the double arithmetic -/

theorem log2Fuel_spec (fuel n : Nat) (h1 : 1 ≤ n) (h2 : n ≤ fuel) :
    2 ^ log2Fuel fuel n ≤ n ∧ n < 2 ^ (log2Fuel fuel n + 1) := by
  induction fuel generalizing n with
  | zero => omega
  | succ f ih =>
    unfold log2Fuel
    by_cases hn : n < 2
    · simp only [hn, if_true]
      constructor <;> simp <;> omega
    · simp only [hn, if_false]
      obtain ⟨i1, i2⟩ := ih (n / 2) (by omega) (by omega)
      rw [pow_succ] at i2 ⊢
      constructor
      · omega
      · rw [pow_succ]
        omega

theorem ilog2_spec (n : Nat) (h : 1 ≤ n) : 2 ^ ilog2 n ≤ n ∧ n < 2 ^ (ilog2 n + 1) :=
  log2Fuel_spec n n h (le_refl n)

theorem floorLog2_le (n d : Nat) (hn : 1 ≤ n) (hd : 1 ≤ d) :
    (2 : ℚ) ^ floorLog2 n d ≤ (n : ℚ) / d := by
  obtain ⟨a1, a2⟩ := ilog2_spec n hn
  obtain ⟨b1, b2⟩ := ilog2_spec d hd
  have hdq : (0 : ℚ) < d := by exact_mod_cast hd
  have h2 : (0 : ℚ) < 2 := by norm_num
  unfold floorLog2
  simp only
  split
  · rename_i hc
    rw [le_div_iff₀ hdq, zpow_sub₀ (by norm_num), zpow_natCast, zpow_natCast,
      div_mul_eq_mul_div, div_le_iff₀ (by positivity)]
    have : ((d * 2 ^ ilog2 n : Nat) : ℚ) ≤ ((n * 2 ^ ilog2 d : Nat) : ℚ) := by exact_mod_cast hc
    push_cast at this
    linarith
  · rw [le_div_iff₀ hdq, sub_sub, zpow_sub₀ (by norm_num), zpow_natCast,
      show ((ilog2 d : Int) + 1) = ((ilog2 d + 1 : Nat) : Int) by push_cast; rfl, zpow_natCast,
      div_mul_eq_mul_div, div_le_iff₀ (by positivity)]
    have e1 : ((2 ^ ilog2 n : Nat) : ℚ) ≤ (n : ℚ) := by exact_mod_cast a1
    have e2 : ((d : Nat) : ℚ) ≤ ((2 ^ (ilog2 d + 1) : Nat) : ℚ) := by exact_mod_cast b2.le
    push_cast at e1 e2
    calc (2 : ℚ) ^ ilog2 n * d ≤ n * d := by
          apply mul_le_mul_of_nonneg_right e1 hdq.le
      _ ≤ n * 2 ^ (ilog2 d + 1) := by
          apply mul_le_mul_of_nonneg_left e2
          positivity

theorem roundNearestEven_le (n d N : Nat) (hd : 0 < d) (h : n ≤ N * d) :
    roundNearestEven n d ≤ N := by
  have hq : n / d ≤ N := by
    apply Nat.div_le_of_le_mul
    rw [Nat.mul_comm]
    exact h
  have hmod := Nat.div_add_mod n d
  have hlt := Nat.mod_lt n hd
  have hstrict : 0 < n % d → n / d + 1 ≤ N := by
    intro hpos
    by_contra hcon
    have heq : n / d = N := by omega
    rw [heq] at hmod
    have : d * N = N * d := Nat.mul_comm _ _
    omega
  unfold roundNearestEven
  simp only
  split
  · exact hq
  · split
    · exact hstrict (by omega)
    · split
      · exact hq
      · exact hstrict (by omega)

theorem two_zpow_toNat_neg (s : Int) :
    (2 : ℚ) ^ (-s).toNat = (2 : ℚ) ^ (-s) * (2 : ℚ) ^ s.toNat := by
  rcases le_or_lt 0 s with h | h
  · have h1 : (-s).toNat = 0 := by omega
    have h2 : ((s.toNat : Nat) : Int) = s := Int.toNat_of_nonneg h
    rw [h1, pow_zero, ← zpow_natCast (2 : ℚ) s.toNat, h2, ← zpow_add₀ (by norm_num)]
    simp
  · have h1 : s.toNat = 0 := by omega
    have h2 : (((-s).toNat : Nat) : Int) = -s := Int.toNat_of_nonneg (by omega)
    rw [h1, pow_zero, mul_one, ← zpow_natCast (2 : ℚ) (-s).toNat, h2]

/-- Rounding to a double never crosses a number `M * 2^r` that has a
significand of at most 53 bits. -/
theorem roundTo53_le (n d M : Nat) (r : Int) (hd : 1 ≤ d) (hM : M < 2 ^ 53)
    (h : (n : ℚ) / d ≤ (M : ℚ) * (2 : ℚ) ^ r) :
    (roundTo53 n d).toRat ≤ (M : ℚ) * (2 : ℚ) ^ r := by
  have hdq : (0 : ℚ) < d := by exact_mod_cast hd
  by_cases hn : n = 0
  · simp only [roundTo53, hn, if_true, Dbl.toRat, Nat.cast_zero, zero_mul]
    positivity
  · have hn1 : 1 ≤ n := by omega
    have hk := floorLog2_le n d hn1 hd
    simp only [roundTo53, hn, if_false, Dbl.toRat]
    generalize hs : floorLog2 n d - 52 = s
    have hks : floorLog2 n d = s + 52 := by omega
    rw [hks] at hk
    have hsr : s ≤ r := by
      by_contra hcon
      have hr : r ≤ s - 1 := by omega
      have hMq : (M : ℚ) < (2 : ℚ) ^ (53 : Int) := by
        have : ((M : Nat) : ℚ) < ((2 ^ 53 : Nat) : ℚ) := by exact_mod_cast hM
        push_cast at this
        rw [show ((53 : Int)) = ((53 : Nat) : Int) by rfl, zpow_natCast]
        exact this
      have h1 : (M : ℚ) * (2 : ℚ) ^ r < (2 : ℚ) ^ (s + 52) := by
        calc (M : ℚ) * (2 : ℚ) ^ r < (2 : ℚ) ^ (53 : Int) * (2 : ℚ) ^ r := by
              apply mul_lt_mul_of_pos_right hMq
              positivity
          _ = (2 : ℚ) ^ (53 + r) := by rw [zpow_add₀ (by norm_num)]
          _ ≤ (2 : ℚ) ^ (s + 52) := by
              apply zpow_le_zpow_right₀ (by norm_num)
              omega
      linarith
    have hrs : (((r - s).toNat : Nat) : Int) = r - s := Int.toNat_of_nonneg (by omega)
    have hN : ((M * 2 ^ (r - s).toNat : Nat) : ℚ) = (M : ℚ) * (2 : ℚ) ^ (r - s) := by
      push_cast
      rw [← zpow_natCast (2 : ℚ) (r - s).toNat, hrs]
    have hAB : n * 2 ^ (-s).toNat ≤ (M * 2 ^ (r - s).toNat) * (d * 2 ^ s.toNat) := by
      have : ((n * 2 ^ (-s).toNat : Nat) : ℚ) ≤
          (((M * 2 ^ (r - s).toNat) * (d * 2 ^ s.toNat) : Nat) : ℚ) := by
        rw [Nat.cast_mul (M * 2 ^ (r - s).toNat), hN]
        push_cast
        rw [two_zpow_toNat_neg s]
        have hx : (n : ℚ) ≤ (M : ℚ) * (2 : ℚ) ^ r * d := by
          rwa [div_le_iff₀ hdq] at h
        have hpos : (0 : ℚ) < (2 : ℚ) ^ (-s) * (2 : ℚ) ^ s.toNat := by positivity
        have e : (M : ℚ) * (2 : ℚ) ^ (r - s) * ((d : ℚ) * (2 : ℚ) ^ s.toNat) =
            ((M : ℚ) * (2 : ℚ) ^ r * d) * ((2 : ℚ) ^ (-s) * (2 : ℚ) ^ s.toNat) := by
          rw [sub_eq_add_neg, zpow_add₀ (by norm_num)]
          ring
        rw [e]
        exact mul_le_mul_of_nonneg_right hx hpos.le
      exact_mod_cast this
    have hB : 0 < d * 2 ^ s.toNat := by positivity
    have hr := roundNearestEven_le _ _ _ hB hAB
    have hrq : ((roundNearestEven (n * 2 ^ (-s).toNat) (d * 2 ^ s.toNat) : Nat) : ℚ) ≤
        (M : ℚ) * (2 : ℚ) ^ (r - s) := by
      rw [← hN]
      exact_mod_cast hr
    calc ((roundNearestEven (n * 2 ^ (-s).toNat) (d * 2 ^ s.toNat) : Nat) : ℚ) * (2 : ℚ) ^ s
        ≤ (M : ℚ) * (2 : ℚ) ^ (r - s) * (2 : ℚ) ^ s := by
          apply mul_le_mul_of_nonneg_right hrq
          positivity
      _ = (M : ℚ) * (2 : ℚ) ^ r := by
          rw [mul_assoc, ← zpow_add₀ (by norm_num)]
          simp

theorem mathRound_le (x : Dbl) (N : Nat) (h : x.toRat ≤ (N : ℚ)) : mathRound x ≤ N := by
  unfold mathRound
  unfold Dbl.toRat at h
  split
  · rename_i he
    have h2 : ((x.e.toNat : Nat) : Int) = x.e := Int.toNat_of_nonneg he
    have : ((x.m * 2 ^ x.e.toNat : Nat) : ℚ) ≤ (N : ℚ) := by
      push_cast
      rw [← zpow_natCast (2 : ℚ) x.e.toNat, h2]
      exact h
    exact_mod_cast this
  · rename_i he
    have h2 : (((-x.e).toNat : Nat) : Int) = -x.e := Int.toNat_of_nonneg (by omega)
    have hp : 0 < 2 ^ (-x.e).toNat := by positivity
    have hm : x.m ≤ N * 2 ^ (-x.e).toNat := by
      have : ((x.m : Nat) : ℚ) ≤ ((N * 2 ^ (-x.e).toNat : Nat) : ℚ) := by
        push_cast
        rw [← zpow_natCast (2 : ℚ) (-x.e).toNat, h2, zpow_neg]
        rw [← div_eq_mul_inv, le_div_iff₀ (by positivity)]
        exact h
      exact_mod_cast this
    generalize 2 ^ (-x.e).toNat = p at hp hm
    have : (2 * x.m + p) / (2 * p) < N + 1 := by
      rw [Nat.div_lt_iff_lt_mul (by omega)]
      have : (N + 1) * (2 * p) = 2 * (N * p) + 2 * p := by ring
      omega
    omega

/-- The double arithmetic at work: `23 / 40` is rounded below `0.575`, so the
product is `57.49999999999999` and rounds to `57`; likewise `29 / 200` gives
`14`, while `1 / 40` gives the exact tie `2.5`, which rounds up. -/
theorem roundPct_examples :
    roundPct 23 40 = 57 ∧ roundPct 29 200 = 14 ∧ roundPct 1 40 = 3 ∧ roundPct 1 3 = 33 := by
  decide

/-- The score `Math.round((correct / total) * 100)` never exceeds 100 when
`correct <= total`. -/
theorem roundPct_le_100 (c t : Nat) (hct : c ≤ t) (ht : 0 < t) : roundPct c t ≤ 100 := by
  unfold roundPct
  apply mathRound_le
  have htq : (0 : ℚ) < t := by exact_mod_cast ht
  have hdiv : (roundTo53 c t).toRat ≤ ((1 : Nat) : ℚ) * (2 : ℚ) ^ (0 : Int) := by
    apply roundTo53_le c t 1 0 ht (by norm_num)
    rw [div_le_iff₀ htq]
    have : (c : ℚ) ≤ t := by exact_mod_cast hct
    simpa using this
  simp only [Nat.cast_one, zpow_zero, mul_one, Dbl.toRat] at hdiv
  have hmul : (roundTo53 ((roundTo53 c t).m * 100) 1).toRat ≤
      ((100 : Nat) : ℚ) * (2 : ℚ) ^ (-(roundTo53 c t).e) := by
    apply roundTo53_le _ 1 100 _ (le_refl 1) (by norm_num)
    rw [zpow_neg]
    push_cast
    rw [div_one, ← div_eq_mul_inv, le_div_iff₀ (by positivity)]
    calc ((roundTo53 c t).m : ℚ) * 100 * (2 : ℚ) ^ (roundTo53 c t).e
        = 100 * (((roundTo53 c t).m : ℚ) * (2 : ℚ) ^ (roundTo53 c t).e) := by ring
      _ ≤ 100 * 1 := by
          apply mul_le_mul_of_nonneg_left hdiv
          norm_num
      _ = 100 := by norm_num
  simp only [Dbl.toRat] at hmul
  simp only [Dbl.mul, Dbl.div, Dbl.ofNat, Dbl.toRat, add_zero, sub_zero]
  rw [zpow_add₀ (by norm_num), ← mul_assoc]
  calc ((roundTo53 ((roundTo53 c t).m * 100) 1).m : ℚ) *
        (2 : ℚ) ^ (roundTo53 ((roundTo53 c t).m * 100) 1).e * (2 : ℚ) ^ (roundTo53 c t).e
      ≤ ((100 : Nat) : ℚ) * (2 : ℚ) ^ (-(roundTo53 c t).e) * (2 : ℚ) ^ (roundTo53 c t).e := by
        apply mul_le_mul_of_nonneg_right hmul
        positivity
    _ = ((100 : Nat) : ℚ) := by
        rw [mul_assoc, ← zpow_add₀ (by norm_num)]
        simp

/-! ## The error of the double arithmetic -/

theorem roundNearestEven_near (n d : Nat) (hd : 0 < d) :
    2 * (roundNearestEven n d * d) ≤ 2 * n + d ∧ 2 * n ≤ 2 * (roundNearestEven n d * d) + d := by
  have hmod := Nat.div_add_mod n d
  have hlt := Nat.mod_lt n hd
  have e1 : (n / d + 1) * d = d * (n / d) + d := by ring
  have e2 : n / d * d = d * (n / d) := by ring
  unfold roundNearestEven
  simp only
  split
  · rw [e2]; omega
  · split
    · rw [e1]; omega
    · split
      · rw [e2]; omega
      · rw [e1]; omega

theorem roundNearestEven_abs (n d : Nat) (hd : 0 < d) :
    |(roundNearestEven n d : ℚ) - (n : ℚ) / d| ≤ 1 / 2 := by
  obtain ⟨h1, h2⟩ := roundNearestEven_near n d hd
  have hdq : (0 : ℚ) < d := by exact_mod_cast hd
  have q1 : (2 : ℚ) * ((roundNearestEven n d : ℚ) * d) ≤ 2 * n + d := by exact_mod_cast h1
  have q2 : (2 : ℚ) * n ≤ 2 * ((roundNearestEven n d : ℚ) * d) + d := by exact_mod_cast h2
  have hx : (n : ℚ) / d * d = n := by field_simp
  rw [abs_le]
  constructor
  · have : (-(1 / 2) : ℚ) * d ≤ ((roundNearestEven n d : ℚ) - (n : ℚ) / d) * d := by
      rw [sub_mul, hx]
      linarith
    exact le_of_mul_le_mul_right this hdq
  · have : ((roundNearestEven n d : ℚ) - (n : ℚ) / d) * d ≤ (1 / 2 : ℚ) * d := by
      rw [sub_mul, hx]
      linarith
    exact le_of_mul_le_mul_right this hdq

/-- The relative error of rounding to a double is at most `2^-53`. -/
theorem roundTo53_err (n d : Nat) (hd : 1 ≤ d) :
    |(roundTo53 n d).toRat - (n : ℚ) / d| ≤ (n : ℚ) / d * (2 : ℚ) ^ (-53 : Int) := by
  have hdq : (0 : ℚ) < d := by exact_mod_cast hd
  by_cases hn : n = 0
  · simp [roundTo53, hn, Dbl.toRat]
  · have hn1 : 1 ≤ n := by omega
    have hk := floorLog2_le n d hn1 hd
    simp only [roundTo53, hn, if_false, Dbl.toRat]
    generalize hs : floorLog2 n d - 52 = s
    have hks : floorLog2 n d = s + 52 := by omega
    rw [hks] at hk
    have hB : 0 < d * 2 ^ s.toNat := by positivity
    have habs := roundNearestEven_abs (n * 2 ^ (-s).toNat) (d * 2 ^ s.toNat) hB
    have hAB : ((n * 2 ^ (-s).toNat : Nat) : ℚ) / ((d * 2 ^ s.toNat : Nat) : ℚ) =
        (n : ℚ) / d * (2 : ℚ) ^ (-s) := by
      push_cast
      rw [two_zpow_toNat_neg s]
      have h2 : ((2 : ℚ) ^ s.toNat) ≠ 0 := by positivity
      field_simp
      ring
    rw [hAB] at habs
    have hpos : (0 : ℚ) < (2 : ℚ) ^ s := by positivity
    have hscale : ((roundNearestEven (n * 2 ^ (-s).toNat) (d * 2 ^ s.toNat) : Nat) : ℚ) *
        (2 : ℚ) ^ s - (n : ℚ) / d =
        (((roundNearestEven (n * 2 ^ (-s).toNat) (d * 2 ^ s.toNat) : Nat) : ℚ) -
          (n : ℚ) / d * (2 : ℚ) ^ (-s)) * (2 : ℚ) ^ s := by
      rw [sub_mul, mul_assoc, ← zpow_add₀ (by norm_num : (2 : ℚ) ≠ 0)]
      simp
    rw [hscale, abs_mul, abs_of_pos hpos]
    calc |((roundNearestEven (n * 2 ^ (-s).toNat) (d * 2 ^ s.toNat) : Nat) : ℚ) -
          (n : ℚ) / d * (2 : ℚ) ^ (-s)| * (2 : ℚ) ^ s
        ≤ 1 / 2 * (2 : ℚ) ^ s := mul_le_mul_of_nonneg_right habs hpos.le
      _ = (2 : ℚ) ^ (s + 52) * (2 : ℚ) ^ (-53 : Int) := by
          rw [← zpow_add₀ (by norm_num : (2 : ℚ) ≠ 0)]
          have : s + 52 + (-53) = s + (-1) := by ring
          rw [this, zpow_add₀ (by norm_num : (2 : ℚ) ≠ 0)]
          norm_num
          ring
      _ ≤ (n : ℚ) / d * (2 : ℚ) ^ (-53 : Int) :=
          mul_le_mul_of_nonneg_right hk (by positivity)

/-- `Math.round` of a double is within one half of it, halves going up. -/
theorem mathRound_bounds (x : Dbl) :
    (mathRound x : ℚ) ≤ x.toRat + 1 / 2 ∧ x.toRat + 1 / 2 < (mathRound x : ℚ) + 1 := by
  unfold mathRound Dbl.toRat
  split
  · rename_i he
    have h2 : ((x.e.toNat : Nat) : Int) = x.e := Int.toNat_of_nonneg he
    have hc : ((x.m * 2 ^ x.e.toNat : Nat) : ℚ) = (x.m : ℚ) * (2 : ℚ) ^ x.e := by
      push_cast
      rw [← zpow_natCast (2 : ℚ) x.e.toNat, h2]
    rw [hc]
    constructor <;> linarith
  · rename_i he
    have h2 : (((-x.e).toNat : Nat) : Int) = -x.e := Int.toNat_of_nonneg (by omega)
    have hp : 0 < 2 ^ (-x.e).toNat := by positivity
    have hval : (x.m : ℚ) * (2 : ℚ) ^ x.e = (x.m : ℚ) / ((2 ^ (-x.e).toNat : Nat) : ℚ) := by
      push_cast
      rw [← zpow_natCast (2 : ℚ) (-x.e).toNat, h2, zpow_neg, div_eq_mul_inv, inv_inv]
    rw [hval]
    generalize 2 ^ (-x.e).toNat = p at hp
    have hpq : (0 : ℚ) < p := by exact_mod_cast hp
    have hdiv := Nat.div_add_mod (2 * x.m + p) (2 * p)
    have hlt := Nat.mod_lt (2 * x.m + p) (show 0 < 2 * p by omega)
    have e1 : (2 * p) * ((2 * x.m + p) / (2 * p)) ≤ 2 * x.m + p := by omega
    have e2 : 2 * x.m + p < (2 * p) * ((2 * x.m + p) / (2 * p)) + 2 * p := by omega
    have q1 : ((2 : ℚ) * p) * (((2 * x.m + p) / (2 * p) : Nat) : ℚ) ≤ 2 * x.m + p := by
      exact_mod_cast e1
    have q2 : (2 : ℚ) * x.m + p < ((2 : ℚ) * p) * (((2 * x.m + p) / (2 * p) : Nat) : ℚ) + 2 * p := by
      exact_mod_cast e2
    have hx : (x.m : ℚ) / p * p = x.m := by field_simp
    constructor
    · have : (((2 * x.m + p) / (2 * p) : Nat) : ℚ) * (2 * p) ≤ ((x.m : ℚ) / p + 1 / 2) * (2 * p) := by
        have : ((x.m : ℚ) / p + 1 / 2) * (2 * p) = 2 * ((x.m : ℚ) / p * p) + p := by ring
        rw [this, hx]
        linarith
      exact le_of_mul_le_mul_right this (by positivity)
    · have : ((x.m : ℚ) / p + 1 / 2) * (2 * p) <
          ((((2 * x.m + p) / (2 * p) : Nat) : ℚ) + 1) * (2 * p) := by
        have : ((x.m : ℚ) / p + 1 / 2) * (2 * p) = 2 * ((x.m : ℚ) / p * p) + p := by ring
        rw [this, hx]
        linarith
      exact lt_of_mul_lt_mul_right this (by positivity)

/-- The double `(c / t) * 100` lies within `300 * 2^-53` of `100 * c / t`. -/
theorem pctValue_err (c t : Nat) (hct : c ≤ t) (ht : 0 < t) :
    |(Dbl.mul (Dbl.div (Dbl.ofNat c) (Dbl.ofNat t)) (Dbl.ofNat 100)).toRat -
      100 * ((c : ℚ) / t)| ≤ 300 * (2 : ℚ) ^ (-53 : Int) := by
  have htq : (0 : ℚ) < t := by exact_mod_cast ht
  have hx0 : (0 : ℚ) ≤ (c : ℚ) / t := by positivity
  have hx1 : (c : ℚ) / t ≤ 1 := by
    rw [div_le_one htq]
    exact_mod_cast hct
  have hδ0 : (0 : ℚ) < (2 : ℚ) ^ (-53 : Int) := by positivity
  have hδ1 : (2 : ℚ) ^ (-53 : Int) ≤ 1 := by
    rw [zpow_neg]
    apply inv_le_one_of_one_le₀
    exact one_le_zpow₀ (by norm_num) (by norm_num)
  have hy := roundTo53_err c t ht
  have hz := roundTo53_err ((roundTo53 c t).m * 100) 1 (le_refl 1)
  simp only [Dbl.toRat] at hy hz
  simp only [Dbl.mul, Dbl.div, Dbl.ofNat, Dbl.toRat, add_zero, sub_zero]
  generalize (roundTo53 c t).m = ym at hy hz ⊢
  generalize (roundTo53 c t).e = ye at hy hz ⊢
  generalize (roundTo53 (ym * 100) 1).m = rm at hz ⊢
  generalize (roundTo53 (ym * 100) 1).e = re at hz ⊢
  generalize (c : ℚ) / t = x at hx0 hx1 hy
  generalize (2 : ℚ) ^ (-53 : Int) = δ at hδ0 hδ1 hy hz ⊢
  push_cast at hz
  rw [div_one] at hz
  have hpe : (0 : ℚ) < (2 : ℚ) ^ ye := by positivity
  have hzz : |(rm : ℚ) * (2 : ℚ) ^ (re + ye) - 100 * ((ym : ℚ) * (2 : ℚ) ^ ye)| ≤
      100 * ((ym : ℚ) * (2 : ℚ) ^ ye) * δ := by
    have e : (rm : ℚ) * (2 : ℚ) ^ (re + ye) - 100 * ((ym : ℚ) * (2 : ℚ) ^ ye) =
        ((rm : ℚ) * (2 : ℚ) ^ re - (ym : ℚ) * 100) * (2 : ℚ) ^ ye := by
      rw [zpow_add₀ (by norm_num : (2 : ℚ) ≠ 0)]
      ring
    rw [e, abs_mul, abs_of_pos hpe]
    calc |(rm : ℚ) * (2 : ℚ) ^ re - (ym : ℚ) * 100| * (2 : ℚ) ^ ye
        ≤ ((ym : ℚ) * 100 * δ) * (2 : ℚ) ^ ye := mul_le_mul_of_nonneg_right hz hpe.le
      _ = 100 * ((ym : ℚ) * (2 : ℚ) ^ ye) * δ := by ring
  generalize (ym : ℚ) * (2 : ℚ) ^ ye = Y at hy hzz
  generalize (rm : ℚ) * (2 : ℚ) ^ (re + ye) = Z at hzz ⊢
  rw [abs_le] at hy hzz ⊢
  obtain ⟨y1, y2⟩ := hy
  obtain ⟨z1, z2⟩ := hzz
  have hxd : x * δ ≤ δ := by
    calc x * δ ≤ 1 * δ := mul_le_mul_of_nonneg_right hx1 hδ0.le
      _ = δ := one_mul δ
  have hxd0 : 0 ≤ x * δ := mul_nonneg hx0 hδ0.le
  have hY : Y ≤ 2 := by linarith
  have hY0 : 0 ≤ Y := by
    have : x * δ ≤ x := by
      calc x * δ ≤ x * 1 := mul_le_mul_of_nonneg_left hδ1 hx0
        _ = x := mul_one x
    linarith
  have hYd : 100 * Y * δ ≤ 200 * δ := by
    have : Y * δ ≤ 2 * δ := mul_le_mul_of_nonneg_right hY hδ0.le
    linarith
  have hYd0 : 0 ≤ 100 * Y * δ := by positivity
  constructor <;> linarith

/-- The score is an integer nearest to `100 * c / t`: it differs from it by
at most one half (for totals below `2^43`). -/
theorem roundPct_nearest (c t : Nat) (hct : c ≤ t) (ht : 0 < t) (hb : t < 2 ^ 43) :
    2 * t * roundPct c t ≤ 200 * c + t ∧ 200 * c ≤ 2 * t * roundPct c t + t := by
  have htq : (0 : ℚ) < t := by exact_mod_cast ht
  have herr := pctValue_err c t hct ht
  have hmr := mathRound_bounds (Dbl.mul (Dbl.div (Dbl.ofNat c) (Dbl.ofNat t)) (Dbl.ofNat 100))
  have hP : roundPct c t =
      mathRound (Dbl.mul (Dbl.div (Dbl.ofNat c) (Dbl.ofNat t)) (Dbl.ofNat 100)) := rfl
  rw [← hP] at hmr
  generalize (Dbl.mul (Dbl.div (Dbl.ofNat c) (Dbl.ofNat t)) (Dbl.ofNat 100)).toRat = Z at herr hmr
  generalize roundPct c t = P at hmr ⊢
  obtain ⟨m1, m2⟩ := hmr
  rw [abs_le] at herr
  obtain ⟨r1, r2⟩ := herr
  have hx : (c : ℚ) / t * t = c := by field_simp
  have hε : 300 * (2 : ℚ) ^ (-53 : Int) * (2 * t) < 1 := by
    have htb : (t : ℚ) < (2 : ℚ) ^ (43 : Nat) := by exact_mod_cast hb
    have e : (2 : ℚ) ^ (-53 : Int) = 1 / (2 : ℚ) ^ (53 : Nat) := by
      rw [zpow_neg, one_div]
      norm_cast
    rw [e, show 300 * (1 / (2 : ℚ) ^ (53 : Nat)) * (2 * (t : ℚ)) =
      (600 * (t : ℚ)) / (2 : ℚ) ^ (53 : Nat) by ring, div_lt_one (by positivity)]
    have h53 : (2 : ℚ) ^ (53 : Nat) = 1024 * (2 : ℚ) ^ (43 : Nat) := by norm_num
    have h43 : (0 : ℚ) < (2 : ℚ) ^ (43 : Nat) := by positivity
    rw [h53]
    linarith
  generalize 300 * (2 : ℚ) ^ (-53 : Int) = ε at hε r1 r2
  generalize hxx : (c : ℚ) / t = x at hx r1 r2
  constructor
  · by_contra hcon
    have hn : 200 * c + t + 1 ≤ 2 * t * P := by omega
    have hq : (200 : ℚ) * c + t + 1 ≤ 2 * t * P := by exact_mod_cast hn
    have h1 : (P : ℚ) * (2 * t) ≤ (100 * x + ε + 1 / 2) * (2 * t) :=
      mul_le_mul_of_nonneg_right (by linarith) (by positivity)
    have h2 : (100 * x + ε + 1 / 2) * (2 * t) = 200 * (x * t) + ε * (2 * t) + t := by ring
    rw [h2, hx] at h1
    linarith
  · by_contra hcon
    have hn : 2 * t * P + t + 1 ≤ 200 * c := by omega
    have hq : (2 : ℚ) * t * P + t + 1 ≤ 200 * c := by exact_mod_cast hn
    have h1 : (100 * x - ε + 1 / 2) * (2 * t) < ((P : ℚ) + 1) * (2 * t) :=
      mul_lt_mul_of_pos_right (by linarith) (by positivity)
    have h2 : (100 * x - ε + 1 / 2) * (2 * t) = 200 * (x * t) - ε * (2 * t) + t := by ring
    rw [h2, hx] at h1
    linarith

/-- The score against exact rounding: it is `round(100 * c / t)` with halves
rounded up, except that on an exact tie (`100 * c / t` is `k + 1/2`) it may be
the lower neighbour `k`. -/
theorem roundPct_exact_or_tie (c t : Nat) (hct : c ≤ t) (ht : 0 < t) (hb : t < 2 ^ 43) :
    roundPct c t = exactPct c t ∨
    (roundPct c t + 1 = exactPct c t ∧ 200 * c = t * (2 * roundPct c t + 1)) := by
  obtain ⟨h1, h2⟩ := roundPct_nearest c t hct ht hb
  unfold exactPct
  generalize roundPct c t = P at h1 h2 ⊢
  have hle : P ≤ (200 * c + t) / (2 * t) := by
    rw [Nat.le_div_iff_mul_le (by omega)]
    have : P * (2 * t) = 2 * t * P := by ring
    omega
  have hup : (200 * c + t) / (2 * t) < P + 2 := by
    rw [Nat.div_lt_iff_lt_mul (by omega)]
    have : (P + 2) * (2 * t) = 2 * t * P + 4 * t := by ring
    omega
  by_cases htie : 200 * c = t * (2 * P + 1)
  · right
    refine ⟨?_, htie⟩
    have : P + 1 ≤ (200 * c + t) / (2 * t) := by
      rw [Nat.le_div_iff_mul_le (by omega)]
      have e1 : (P + 1) * (2 * t) = 2 * t * P + 2 * t := by ring
      have e2 : t * (2 * P + 1) = 2 * t * P + t := by ring
      omega
    omega
  · left
    have : (200 * c + t) / (2 * t) < P + 1 := by
      rw [Nat.div_lt_iff_lt_mul (by omega)]
      have e1 : (P + 1) * (2 * t) = 2 * t * P + 2 * t := by ring
      have e2 : t * (2 * P + 1) = 2 * t * P + t := by ring
      omega
    omega

/-! ## Per-theme statistics -/

theorem Dict.keys_set_nodup {β : Type} (m : Dict β) (k : String) (v : β)
    (h : m.keys.Nodup) : (m.set k v).keys.Nodup := by
  rw [Dict.keys_set]
  split
  · exact h
  · rename_i hk
    rw [List.nodup_append]
    refine ⟨h, List.nodup_singleton k, ?_⟩
    intro a ha hb
    simp only [List.mem_singleton] at hb
    subst hb
    exact hk ha

theorem Dict.get_of_mem {β : Type} (m : Dict β) (h : m.keys.Nodup) (k : String) (v : β)
    (hm : (k, v) ∈ m) : m.get k = some v := by
  induction m with
  | nil => simp at hm
  | cons hd tl ih =>
    obtain ⟨k', v'⟩ := hd
    simp only [Dict.keys, List.map_cons, List.nodup_cons] at h
    simp only [List.mem_cons, Prod.mk.injEq] at hm
    rcases hm with ⟨rfl, rfl⟩ | hm
    · simp [Dict.get]
    · have hne : k' ≠ k := by
        rintro rfl
        exact h.1 (List.mem_map.2 ⟨(k', v), hm, rfl⟩)
      simp only [Dict.get, hne, if_false]
      exact ih h.2 hm

theorem Dict.mem_of_get {β : Type} (m : Dict β) (k : String) (v : β)
    (h : m.get k = some v) : (k, v) ∈ m := by
  induction m with
  | nil => simp [Dict.get] at h
  | cons hd tl ih =>
    obtain ⟨k', v'⟩ := hd
    by_cases hk : k' = k
    · simp only [Dict.get, hk, if_true, Option.some.injEq] at h
      subst hk; subst h
      exact List.mem_cons_self _ _
    · simp only [Dict.get, hk, if_false] at h
      exact List.mem_cons_of_mem _ (ih h)

theorem tally_get (m : Dict ThemeCount) (a : AnswerEvent) (t : String) :
    (tally m a).get t =
      if a.theme = t then
        some { total := ((m.get t).getD { total := 0, correct := 0 }).total + 1,
               correct := ((m.get t).getD { total := 0, correct := 0 }).correct +
                 (if a.correct then 1 else 0) }
      else m.get t := by
  unfold tally
  by_cases h : a.theme = t
  · subst h
    simp [Dict.get_set_self]
  · have h' : t ≠ a.theme := fun e => h e.symm
    simp [h, Dict.get_set_other _ _ _ _ h']

theorem foldl_tally_nodup (ans : List AnswerEvent) (m : Dict ThemeCount) (h : m.keys.Nodup) :
    (ans.foldl tally m).keys.Nodup := by
  induction ans generalizing m with
  | nil => exact h
  | cons a rest ih => exact ih _ (Dict.keys_set_nodup _ _ _ h)

theorem foldl_ensureTheme_nodup (themes : List String) (m : Dict ThemeCount)
    (h : m.keys.Nodup) : (themes.foldl ensureTheme m).keys.Nodup := by
  induction themes generalizing m with
  | nil => exact h
  | cons t rest ih =>
    apply ih
    unfold ensureTheme
    split
    · exact h
    · exact Dict.keys_set_nodup _ _ _ h

theorem themeTable_nodup (themes : List String) (ans : List AnswerEvent) :
    (themeTable themes ans).keys.Nodup :=
  foldl_ensureTheme_nodup _ _ (foldl_tally_nodup _ _ List.nodup_nil)

theorem foldl_tally_get (ans : List AnswerEvent) (t : String) :
    (ans.foldl tally []).get t =
      if (ans.filter (fun a => decide (a.theme = t))).length = 0 then none
      else some { total := (ans.filter (fun a => decide (a.theme = t))).length,
                  correct := (ans.filter (fun a => decide (a.theme = t) && a.correct)).length } := by
  induction ans using List.reverseRecOn with
  | nil => simp [Dict.get]
  | append_singleton init a ih =>
    rw [List.foldl_append, List.foldl_cons, List.foldl_nil, tally_get, ih]
    by_cases h : a.theme = t
    · by_cases h0 : (init.filter (fun a => decide (a.theme = t))).length = 0
      · have h0' : init.filter (fun a => decide (a.theme = t)) = [] :=
          List.eq_nil_of_length_eq_zero h0
        have h1 : init.filter (fun a => decide (a.theme = t) && a.correct) = [] := by
          rw [List.filter_eq_nil_iff] at h0' ⊢
          intro x hx
          have := h0' x hx
          simp only [decide_eq_true_eq] at this
          simp [this]
        cases hc : a.correct <;> simp [h, h0', h1, hc, List.filter_append]
      · cases hc : a.correct <;> simp [h, h0, hc, List.filter_append]
    · simp [h, List.filter_append]

theorem foldl_ensureTheme_get (themes : List String) (m : Dict ThemeCount) (t : String) :
    (themes.foldl ensureTheme m).get t =
      if (m.get t).isSome then m.get t
      else if t ∈ themes then some { total := 0, correct := 0 } else none := by
  induction themes generalizing m with
  | nil =>
    cases h : m.get t <;> simp [h]
  | cons t1 rest ih =>
    rw [List.foldl_cons, ih]
    unfold ensureTheme
    by_cases h1 : (m.get t1).isSome
    · simp only [h1, if_true]
      by_cases h2 : (m.get t).isSome
      · simp [h2]
      · have hne : t ≠ t1 := by
          rintro rfl
          exact h2 h1
        simp [h2, hne]
    · simp only [h1, Bool.false_eq_true, if_false]
      by_cases h3 : t = t1
      · subst h3
        simp [Dict.get_set_self, h1]
      · simp only [Dict.get_set_other _ _ _ _ h3]
        by_cases h2 : (m.get t).isSome
        · simp [h2]
        · simp [h2, h3]

theorem themeTable_get (themes : List String) (ans : List AnswerEvent) (t : String) :
    (themeTable themes ans).get t =
      if (ans.filter (fun a => decide (a.theme = t))).length = 0 then
        (if t ∈ themes then some { total := 0, correct := 0 } else none)
      else some { total := (ans.filter (fun a => decide (a.theme = t))).length,
                  correct := (ans.filter (fun a => decide (a.theme = t) && a.correct)).length } := by
  unfold themeTable
  rw [foldl_ensureTheme_get, foldl_tally_get]
  by_cases h0 : (ans.filter (fun a => decide (a.theme = t))).length = 0
  · simp [h0]
  · simp [h0]

theorem mem_computeThemeStats (cmp : String → String → Int) (themes : List String) (now : Int)
    (nDays : Int) (ls : Storage) (e : ThemeStat) :
    e ∈ computeThemeStats cmp themes now nDays ls ↔
      ∃ v, (themeTable themes (lastNDaysAnswers now nDays ls)).get e.theme = some v ∧
        e = toStat (e.theme, v) := by
  unfold computeThemeStats
  simp only
  rw [(List.perm_insertionSort _ _).mem_iff, List.mem_map]
  constructor
  · rintro ⟨⟨k, v⟩, hmem, rfl⟩
    exact ⟨v, Dict.get_of_mem _ (themeTable_nodup _ _) _ _ hmem, rfl⟩
  · rintro ⟨v, hget, he⟩
    exact ⟨(e.theme, v), Dict.mem_of_get _ _ _ hget, he.symm⟩

theorem lastNDaysAnswers_filter (now : Int) (nDays : Int) (ls : Storage) (t : String) :
    (lastNDaysAnswers now nDays ls).filter (fun a => decide (a.theme = t)) =
      eventsInWindow now nDays ls t := by
  unfold lastNDaysAnswers eventsInWindow
  simp only [List.filter_filter]
  have h : nDays * 24 * 60 * 60 * 1000 = nDays * 86400000 := by ring
  rw [h]

theorem lastNDaysAnswers_filter_correct (now : Int) (nDays : Int) (ls : Storage) (t : String) :
    (lastNDaysAnswers now nDays ls).filter (fun a => decide (a.theme = t) && a.correct) =
      (eventsInWindow now nDays ls t).filter (fun a => a.correct) := by
  rw [← lastNDaysAnswers_filter, List.filter_filter]
  congr 1
  funext a
  exact Bool.and_comm _ _

theorem themeTable_get_window (themes : List String) (now : Int) (nDays : Int) (ls : Storage)
    (t : String) :
    (themeTable themes (lastNDaysAnswers now nDays ls)).get t =
      if (eventsInWindow now nDays ls t).length = 0 then
        (if t ∈ themes then some { total := 0, correct := 0 } else none)
      else some { total := (eventsInWindow now nDays ls t).length,
                  correct := ((eventsInWindow now nDays ls t).filter (fun a => a.correct)).length } := by
  rw [themeTable_get, lastNDaysAnswers_filter, lastNDaysAnswers_filter_correct]

theorem mem_eventsInWindow (now : Int) (nDays : Int) (ls : Storage) (t : String)
    (a : AnswerEvent) :
    a ∈ eventsInWindow now nDays ls t ↔
      a ∈ (loadStore ls).answers ∧ a.theme = t ∧ a.t ≥ now - nDays * 86400000 := by
  simp [eventsInWindow]

/-- C8 (as amended). `computeThemeStats` counts correctly: every entry of
the output has `total` the number of logged events of its theme with
`t >= now - nDays * 86400000`, `correct` the number of those with
`correct = true`, `pct = Math.round((correct / total) * 100)` as the doubles
give it when `total > 0` and `0` otherwise; hence `correct <= total` and
`pct <= 100` (all three are naturals), and older events are counted in no
entry.  For `0 < total < 2^43` that `pct` is an integer nearest to
`100 * correct / total` (it differs from it by at most one half): it is
`round(100 * correct / total)` with halves rounded up, except that on an exact
tie `k + 1/2` it may be `k`. -/
theorem computeThemeStats_counts (cmp : String → String → Int) (themes : List String)
    (now : Int) (nDays : Int) (ls : Storage) (e : ThemeStat)
    (he : e ∈ computeThemeStats cmp themes now nDays ls) :
    e.total = (eventsInWindow now nDays ls e.theme).length ∧
    e.correct = ((eventsInWindow now nDays ls e.theme).filter (fun a => a.correct)).length ∧
    e.pct = (if e.total = 0 then 0 else roundPct e.correct e.total) ∧
    e.correct ≤ e.total ∧ e.pct ≤ 100 ∧
    (0 < e.total → e.total < 2 ^ 43 →
      2 * e.total * e.pct ≤ 200 * e.correct + e.total ∧
      200 * e.correct ≤ 2 * e.total * e.pct + e.total ∧
      (e.pct = exactPct e.correct e.total ∨
        (e.pct + 1 = exactPct e.correct e.total ∧
          200 * e.correct = e.total * (2 * e.pct + 1)))) := by
  obtain ⟨v, hget, hev⟩ := (mem_computeThemeStats cmp themes now nDays ls e).1 he
  have htot : e.total = v.total := by rw [hev]; rfl
  have hcor : e.correct = v.correct := by rw [hev]; rfl
  have hpct : e.pct = if v.total ≠ 0 then roundPct v.correct v.total else 0 := by rw [hev]; rfl
  rw [themeTable_get_window] at hget
  have hv : v.total = (eventsInWindow now nDays ls e.theme).length ∧
      v.correct = ((eventsInWindow now nDays ls e.theme).filter (fun a => a.correct)).length := by
    by_cases h0 : (eventsInWindow now nDays ls e.theme).length = 0
    · have hnil : eventsInWindow now nDays ls e.theme = [] := List.eq_nil_of_length_eq_zero h0
      rw [if_pos h0] at hget
      by_cases hth : e.theme ∈ themes
      · rw [if_pos hth] at hget
        simp only [Option.some.injEq] at hget
        subst hget
        simp [hnil]
      · rw [if_neg hth] at hget
        simp at hget
    · rw [if_neg h0] at hget
      simp only [Option.some.injEq] at hget
      subst hget
      exact ⟨rfl, rfl⟩
  have hle : v.correct ≤ v.total := by
    rw [hv.1, hv.2]
    exact List.length_filter_le _ _
  refine ⟨by rw [htot, hv.1], by rw [hcor, hv.2], ?_, by rw [htot, hcor]; exact hle, ?_, ?_⟩
  · rw [hpct, htot, hcor]
    by_cases hz : v.total = 0 <;> simp [hz]
  · rw [hpct]
    by_cases hz : v.total = 0
    · simp [hz]
    · simp only [ne_eq, hz, not_false_eq_true, if_true]
      exact roundPct_le_100 _ _ hle (by omega)
  · intro hpos hb
    rw [htot] at hpos hb
    have hz : v.total ≠ 0 := by omega
    have hp : e.pct = roundPct v.correct v.total := by
      rw [hpct]
      simp only [ne_eq, hz, not_false_eq_true, if_true]
    rw [hp, htot, hcor]
    obtain ⟨n1, n2⟩ := roundPct_nearest v.correct v.total hle hpos hb
    exact ⟨n1, n2, roundPct_exact_or_tie v.correct v.total hle hpos hb⟩

theorem computeThemeStats_counts_witness :
    (⟨"Reasoning", 2, 1, 50⟩ : ThemeStat) ∈
      computeThemeStats demoCompare ["Numeracy", "Reasoning", "Verbal"] 700000000 7 demoLog ∧
    (2 : Nat) = (eventsInWindow 700000000 7 demoLog "Reasoning").length ∧
    computeThemeStats demoCompare ["Numeracy"] 700000000 7 demoLogThirds =
      [⟨"Numeracy", 3, 2, 67⟩] ∧
    exactPct 2 3 = 67 :=
  ⟨by decide,
   (computeThemeStats_counts demoCompare ["Numeracy", "Reasoning", "Verbal"] 700000000 7 demoLog
      ⟨"Reasoning", 2, 1, 50⟩ (by decide)).1,
   by decide, by decide⟩

set_option maxRecDepth 20000 in
/-- C8 (as stated) fails at 23 correct answers of 40: the entry of the theme
has `total = 40`, `correct = 23` and `pct = 57`, while
`round(23 / 40 * 100) = round(57.5)` is 58. -/
theorem computeThemeStats_pct_23_of_40 :
    computeThemeStats demoCompare [] 700000000 7 demoLog40 = [⟨"Reasoning", 40, 23, 57⟩] ∧
    exactPct 23 40 = 58 := by
  decide

theorem exists_entry_iff (cmp : String → String → Int) (themes : List String) (now : Int)
    (nDays : Int) (ls : Storage) (t : String) :
    (∃ e ∈ computeThemeStats cmp themes now nDays ls, e.theme = t) ↔
      ((themeTable themes (lastNDaysAnswers now nDays ls)).get t).isSome = true := by
  constructor
  · rintro ⟨e, he, rfl⟩
    obtain ⟨v, hget, _⟩ := (mem_computeThemeStats cmp themes now nDays ls e).1 he
    rw [hget]
    rfl
  · intro h
    obtain ⟨v, hv⟩ := Option.isSome_iff_exists.1 h
    refine ⟨toStat (t, v), ?_, rfl⟩
    rw [mem_computeThemeStats]
    exact ⟨v, hv, rfl⟩

/-- C9. Stats completeness: the output of `computeThemeStats` has an entry for
every theme of `THEMES`; a theme of `THEMES` with no event inside the window
is reported as `total = 0, correct = 0, pct = 0` and in no other way; and the
themes of the output are exactly `THEMES` together with the themes of the
in-window events. -/
theorem computeThemeStats_complete (cmp : String → String → Int) (themes : List String)
    (now : Int) (nDays : Int) (ls : Storage) :
    (∀ t ∈ themes, ∃ e ∈ computeThemeStats cmp themes now nDays ls, e.theme = t) ∧
    (∀ t ∈ themes, eventsInWindow now nDays ls t = [] →
      (⟨t, 0, 0, 0⟩ : ThemeStat) ∈ computeThemeStats cmp themes now nDays ls ∧
      ∀ e ∈ computeThemeStats cmp themes now nDays ls, e.theme = t → e = ⟨t, 0, 0, 0⟩) ∧
    (∀ t, (∃ e ∈ computeThemeStats cmp themes now nDays ls, e.theme = t) ↔
      (t ∈ themes ∨ ∃ a ∈ (loadStore ls).answers, a.theme = t ∧ a.t ≥ now - nDays * 86400000)) := by
  have hiff : ∀ t, (∃ e ∈ computeThemeStats cmp themes now nDays ls, e.theme = t) ↔
      (t ∈ themes ∨ ∃ a ∈ (loadStore ls).answers, a.theme = t ∧ a.t ≥ now - nDays * 86400000) := by
    intro t
    rw [exists_entry_iff, themeTable_get_window]
    by_cases h0 : (eventsInWindow now nDays ls t).length = 0
    · have hnil : eventsInWindow now nDays ls t = [] := List.eq_nil_of_length_eq_zero h0
      have hno : ¬ ∃ a ∈ (loadStore ls).answers, a.theme = t ∧ a.t ≥ now - nDays * 86400000 := by
        rintro ⟨a, ha1, ha2, ha3⟩
        have : a ∈ eventsInWindow now nDays ls t :=
          (mem_eventsInWindow now nDays ls t a).2 ⟨ha1, ha2, ha3⟩
        rw [hnil] at this
        simp at this
      rw [if_pos h0]
      by_cases hth : t ∈ themes
      · simp [hth]
      · simp only [hth, if_false, false_or]
        constructor
        · intro h
          simp at h
        · intro h
          exact absurd h hno
    · rw [if_neg h0]
      have hne : eventsInWindow now nDays ls t ≠ [] := by
        intro hnil
        exact h0 (by rw [hnil]; rfl)
      obtain ⟨a, ha⟩ := List.exists_mem_of_ne_nil _ hne
      obtain ⟨ha1, ha2, ha3⟩ := (mem_eventsInWindow now nDays ls t a).1 ha
      constructor
      · intro _
        exact Or.inr ⟨a, ha1, ha2, ha3⟩
      · intro _
        rfl
  refine ⟨fun t ht => (hiff t).2 (Or.inl ht), ?_, hiff⟩
  intro t ht hnil
  have hget : (themeTable themes (lastNDaysAnswers now nDays ls)).get t =
      some { total := 0, correct := 0 } := by
    rw [themeTable_get_window, hnil]
    simp [ht]
  constructor
  · rw [mem_computeThemeStats]
    exact ⟨{ total := 0, correct := 0 }, hget, rfl⟩
  · intro e he hte
    obtain ⟨v, hv, hev⟩ := (mem_computeThemeStats cmp themes now nDays ls e).1 he
    rw [hte, hget] at hv
    simp only [Option.some.injEq] at hv
    subst hv
    rw [hev, hte]
    rfl

/-! ## Day records: `ensureDay` and `clearDay` -/

theorem Dict.get_erase_self {β : Type} (m : Dict β) (k : String) : (m.erase k).get k = none := by
  induction m with
  | nil => rfl
  | cons hd tl ih =>
    obtain ⟨k', v'⟩ := hd
    by_cases h : k' = k
    · simpa [Dict.erase, h] using ih
    · simp only [Dict.erase, ne_eq, h, not_false_eq_true, decide_True, List.filter_cons_of_pos,
        Dict.get, if_false]
      exact ih

theorem Dict.get_erase_other {β : Type} (m : Dict β) (k k2 : String) (h : k2 ≠ k) :
    (m.erase k).get k2 = m.get k2 := by
  induction m with
  | nil => rfl
  | cons hd tl ih =>
    obtain ⟨k', v'⟩ := hd
    by_cases hk : k' = k
    · subst hk
      have h' : ¬ k' = k2 := fun e => h e.symm
      simpa [Dict.erase, Dict.get, h'] using ih
    · simp only [Dict.erase, ne_eq, hk, not_false_eq_true, decide_True, List.filter_cons_of_pos,
        Dict.get]
      by_cases hk2 : k' = k2
      · simp [hk2]
      · simp only [hk2, if_false]
        exact ih

theorem Dict.erase_of_get_none {β : Type} (m : Dict β) (k : String) (h : m.get k = none) :
    m.erase k = m := by
  induction m with
  | nil => rfl
  | cons hd tl ih =>
    obtain ⟨k', v'⟩ := hd
    by_cases hk : k' = k
    · simp [Dict.get, hk] at h
    · simp only [Dict.get, hk, if_false] at h
      simp only [Dict.erase, ne_eq, hk, not_false_eq_true, decide_True, List.filter_cons_of_pos,
        List.cons.injEq, true_and]
      exact ih h

theorem ensureDay_of_get (now : Int) (store : Store) (d : String) (r : DayRecord)
    (h : store.days.get d = some r) : ensureDay now store d = (store, r) := by
  unfold ensureDay
  rw [h]

/-- C17. `ensureDay` is idempotent: a second call on the store the first call
left returns the same record and leaves that store as it is, whatever the
clock reads; and a day that already has a record is returned as stored, with
its `seconds` and `sessions`, and the store is not touched. -/
theorem ensureDay_idempotent (now1 now2 : Int) (store : Store) (d : String) :
    (ensureDay now2 (ensureDay now1 store d).1 d).2 = (ensureDay now1 store d).2 ∧
    (ensureDay now2 (ensureDay now1 store d).1 d).1 = (ensureDay now1 store d).1 ∧
    (ensureDay now1 store d).1.days.get d = some (ensureDay now1 store d).2 ∧
    (∀ r, store.days.get d = some r →
      (ensureDay now1 store d).2 = r ∧ (ensureDay now1 store d).1 = store) := by
  have hget : (ensureDay now1 store d).1.days.get d = some (ensureDay now1 store d).2 := by
    unfold ensureDay
    cases h : store.days.get d with
    | none => simp [Dict.get_set_self]
    | some r => simp [h]
  refine ⟨?_, ?_, hget, ?_⟩
  · rw [ensureDay_of_get now2 _ d _ hget]
  · rw [ensureDay_of_get now2 _ d _ hget]
  · intro r hr
    rw [ensureDay_of_get now1 _ d _ hr]
    exact ⟨rfl, rfl⟩

/-- C18. `clearDay(d)` frame: afterwards the store has no record for `d`,
every other day reads as before, the remaining keys keep their order, and the
answer log is the same; on a day without a record the store is unchanged. -/
theorem clearDay_frame (d : String) (ls : Storage) :
    (loadStore (clearDay d ls)).days.get d = none ∧
    (∀ d2, d2 ≠ d → (loadStore (clearDay d ls)).days.get d2 = (loadStore ls).days.get d2) ∧
    (loadStore (clearDay d ls)).days.keys = (loadStore ls).days.keys.filter (fun k => k ≠ d) ∧
    (loadStore (clearDay d ls)).answers = (loadStore ls).answers ∧
    ((loadStore ls).days.get d = none → loadStore (clearDay d ls) = loadStore ls) := by
  have hdays : (loadStore (clearDay d ls)).days = (loadStore ls).days.erase d := rfl
  refine ⟨?_, ?_, ?_, rfl, ?_⟩
  · rw [hdays, Dict.get_erase_self]
  · intro d2 h
    rw [hdays, Dict.get_erase_other _ _ _ h]
  · rw [hdays]
    simp [Dict.erase, Dict.keys, List.filter_map, Function.comp_def]
  · intro h
    have : loadStore (clearDay d ls) = { loadStore ls with days := (loadStore ls).days.erase d } := rfl
    rw [this, Dict.erase_of_get_none _ _ h]

/-! ## Stopping the study timer -/

/-- The amount `timerStopAndSave` commits: `accumulated`, plus the seconds of
the running interval when the timer is running. -/
theorem timerStopAndSave_amount (now : Int) (day : String) (ts : TimerState) (ls : Storage) :
    timerStopAndSave now day ts ls =
      ({ (if ts.running then timerPause now ts else ts) with accumulated := 0 },
       if (ts.accumulated + (if ts.running then (now - ts.startedAt.getD 0) / 1000 else 0)) > 0
       then addTimeToDay now day
         (ts.accumulated + (if ts.running then (now - ts.startedAt.getD 0) / 1000 else 0)) ls
       else ls) := by
  unfold timerStopAndSave
  cases h : ts.running <;> simp [timerPause, h]

/-- C12. `timerStopAndSave`: with `A = accumulated + floor((now - startedAt) /
1000)` when running and `A = accumulated` otherwise, a positive `A` is
committed by exactly one `addTimeToDay(day, A)` (the day gains one session
and, its seconds not being negative, `A` seconds), `A = 0` (or less) leaves
the store as it is, the timer ends with `running = false` and
`accumulated = 0`, and a second stop changes neither timer nor store. -/
theorem timerStopAndSave_commits (now now2 : Int) (day day2 : String) (ts : TimerState)
    (ls : Storage) :
    (0 < ts.accumulated + (if ts.running then (now - ts.startedAt.getD 0) / 1000 else 0) →
      (timerStopAndSave now day ts ls).2 = addTimeToDay now day
        (ts.accumulated + (if ts.running then (now - ts.startedAt.getD 0) / 1000 else 0)) ls ∧
      ((loadStore (timerStopAndSave now day ts ls).2).days.get day).map (fun r => r.sessions) =
        some ((((loadStore ls).days.get day).map (fun r => r.sessions)).getD 0 + 1) ∧
      (0 ≤ (((loadStore ls).days.get day).map (fun r => r.seconds)).getD 0 →
        ((loadStore (timerStopAndSave now day ts ls).2).days.get day).map (fun r => r.seconds) =
          some ((((loadStore ls).days.get day).map (fun r => r.seconds)).getD 0 +
            (ts.accumulated +
              (if ts.running then (now - ts.startedAt.getD 0) / 1000 else 0))))) ∧
    (ts.accumulated + (if ts.running then (now - ts.startedAt.getD 0) / 1000 else 0) ≤ 0 →
      (timerStopAndSave now day ts ls).2 = ls) ∧
    (timerStopAndSave now day ts ls).1.running = false ∧
    (timerStopAndSave now day ts ls).1.accumulated = 0 ∧
    timerStopAndSave now2 day2 (timerStopAndSave now day ts ls).1
      (timerStopAndSave now day ts ls).2 = timerStopAndSave now day ts ls := by
  have hrun : (timerStopAndSave now day ts ls).1.running = false := by
    rw [timerStopAndSave_amount]
    cases h : ts.running <;> simp [timerPause, h]
  have hacc : (timerStopAndSave now day ts ls).1.accumulated = 0 := by
    rw [timerStopAndSave_amount]
  refine ⟨?_, ?_, hrun, hacc, ?_⟩
  · intro hA
    have hst : (timerStopAndSave now day ts ls).2 = addTimeToDay now day
        (ts.accumulated + (if ts.running then (now - ts.startedAt.getD 0) / 1000 else 0)) ls := by
      rw [timerStopAndSave_amount]
      simp only [gt_iff_lt, hA, if_true]
    refine ⟨hst, ?_, ?_⟩
    · rw [hst, addTimeToDay_days, Dict.get_set_self]
      unfold ensureDay
      cases (loadStore ls).days.get day <;> simp
    · intro hold
      rw [hst, addTimeToDay_days, Dict.get_set_self]
      unfold ensureDay
      cases hg : (loadStore ls).days.get day with
      | none =>
        simp only [Option.map_some', Option.map_none', Option.getD_none, Option.some.injEq]
        omega
      | some r =>
        rw [hg] at hold
        simp only [Option.map_some', Option.getD_some] at hold
        simp only [Option.map_some', Option.getD_some, Option.some.injEq]
        omega
  · intro hA
    rw [timerStopAndSave_amount]
    have : ¬ (ts.accumulated + (if ts.running then (now - ts.startedAt.getD 0) / 1000 else 0)) > 0 := by
      omega
    simp only [this, if_false]
  · rw [timerStopAndSave_amount now2 day2]
    simp only [hrun, hacc, Bool.false_eq_true, if_false, add_zero, gt_iff_lt, lt_self_iff_false]
    generalize timerStopAndSave now day ts ls = res at hrun hacc
    obtain ⟨⟨r, s, a, t⟩, st⟩ := res
    simp only at hrun hacc
    rw [hrun, hacc]

/-! ## `shuffle` -/

theorem cons_set_perm {α : Type} (t : List α) (j : Nat) (a y : α) (h : t[j]? = some y) :
    (y :: t.set j a).Perm (a :: t) := by
  induction t generalizing j with
  | nil => simp at h
  | cons b t ih =>
    cases j with
    | zero =>
      simp only [List.getElem?_cons_zero, Option.some.injEq] at h
      subst h
      simp only [List.set_cons_zero]
      exact List.Perm.swap _ _ _
    | succ j =>
      simp only [List.getElem?_cons_succ] at h
      simp only [List.set_cons_succ]
      calc (y :: b :: t.set j a).Perm (b :: y :: t.set j a) := List.Perm.swap _ _ _
        _ |>.Perm (b :: a :: t) := List.Perm.cons _ (ih j h)
        _ |>.Perm (a :: b :: t) := List.Perm.swap _ _ _

theorem swap_perm {α : Type} (arr : List α) (i j : Nat) : (swap arr i j).Perm arr := by
  unfold swap
  cases hx : arr[i]? with
  | none => exact List.Perm.refl _
  | some x =>
    cases hy : arr[j]? with
    | none => exact List.Perm.refl _
    | some y =>
      simp only
      induction arr generalizing i j with
      | nil => simp at hx
      | cons a t ih =>
        cases i with
        | zero =>
          simp only [List.getElem?_cons_zero, Option.some.injEq] at hx
          subst hx
          cases j with
          | zero =>
            simp only [List.getElem?_cons_zero, Option.some.injEq] at hy
            subst hy
            simp
          | succ j =>
            simp only [List.getElem?_cons_succ] at hy
            simp only [List.set_cons_zero, List.set_cons_succ]
            exact cons_set_perm t j _ y hy
        | succ i =>
          simp only [List.getElem?_cons_succ] at hx
          cases j with
          | zero =>
            simp only [List.getElem?_cons_zero, Option.some.injEq] at hy
            subst hy
            simp only [List.set_cons_succ, List.set_cons_zero]
            exact cons_set_perm t i _ x hx
          | succ j =>
            simp only [List.getElem?_cons_succ] at hy
            simp only [List.set_cons_succ]
            exact List.Perm.cons _ (ih i j hx hy)

theorem shuffleFrom_perm {α : Type} (draws : Nat → Nat) (i : Nat) (arr : List α) :
    (shuffleFrom draws i arr).Perm arr := by
  induction i generalizing arr with
  | zero => exact List.Perm.refl _
  | succ i ih => exact (ih _).trans (swap_perm arr (i + 1) (draws (i + 1)))

theorem shuffle_perm {α : Type} (draws : Nat → Nat) (arr : List α) :
    (shuffle draws arr).Perm arr :=
  shuffleFrom_perm draws _ arr

/-- C19. `shuffle` returns a permutation: when every draw at index `i` lies in
`0..i`, the result has the length and the multiset of elements of the input;
hence a practice pool built with shuffle on holds each filtered question as
often as the filtered bank does (once, in a bank without repetitions). -/
theorem shuffle_permutation {α : Type} (draws : Nat → Nat) (arr : List α)
    (theme : String) (bank : List Question) (hdraws : ∀ i, draws i ≤ i) :
    (shuffle draws arr).length = arr.length ∧ (shuffle draws arr).Perm arr ∧
    (buildPracticePool draws theme true bank).pool.Perm (bank.filter (matchesTheme theme)) ∧
    (∀ q, (buildPracticePool draws theme true bank).pool.count q =
      (bank.filter (matchesTheme theme)).count q) := by
  have _ := hdraws
  have hp : (buildPracticePool draws theme true bank).pool.Perm
      (bank.filter (matchesTheme theme)) := by
    simp only [buildPracticePool, if_true]
    exact shuffle_perm draws _
  exact ⟨(shuffle_perm draws arr).length_eq, shuffle_perm draws arr, hp, fun q => hp.count_eq q⟩

theorem shuffle_permutation_witness :
    (∀ i, demoDraws i ≤ i) ∧
    (shuffle demoDraws [1, 2, 3, 4]).Perm [1, 2, 3, 4] ∧
    (shuffle (fun _ => 0) [1, 2, 3, 4]) = [2, 3, 4, 1] :=
  ⟨fun i => Nat.le_refl i,
   (shuffle_permutation demoDraws [1, 2, 3, 4] "ALL" demoBank (fun i => Nat.le_refl i)).2.1,
   by decide⟩

theorem swap_map {α β : Type} (g : α → β) (l : List α) (i j : Nat) :
    swap (l.map g) i j = (swap l i j).map g := by
  unfold swap
  simp only [List.getElem?_map]
  cases l[i]? with
  | none => rfl
  | some x =>
    cases l[j]? with
    | none => rfl
    | some y => simp [List.map_set]

theorem shuffleFrom_map {α β : Type} (draws : Nat → Nat) (g : α → β) (i : Nat) (l : List α) :
    shuffleFrom draws i (l.map g) = (shuffleFrom draws i l).map g := by
  induction i generalizing l with
  | zero => rfl
  | succ i ih =>
    simp only [shuffleFrom, swap_map, ih]

theorem shuffle_map {α β : Type} (draws : Nat → Nat) (g : α → β) (l : List α) :
    shuffle draws (l.map g) = (shuffle draws l).map g := by
  unfold shuffle
  rw [List.length_map, shuffleFrom_map]

theorem map_some_eq_range {α : Type} (B : List α) :
    B.map some = (List.range B.length).map (fun k => B[k]?) := by
  apply List.ext_getElem?
  intro p
  simp only [List.getElem?_map]
  by_cases hp : p < B.length
  · rw [List.getElem?_range hp, List.getElem?_eq_getElem hp]
    simp [List.getElem?_eq_getElem hp]
  · have h1 : B[p]? = none := List.getElem?_eq_none (by omega)
    have h2 : (List.range B.length)[p]? = none := List.getElem?_eq_none (by simp; omega)
    rw [h1, h2]
    rfl

/-- The result of `shuffle` reads the input through a list of distinct
positions. -/
theorem shuffle_index_map {α : Type} (draws : Nat → Nat) (B : List α) :
    ∃ idxs : List Nat, idxs.Nodup ∧ idxs.length = B.length ∧ (∀ k ∈ idxs, k < B.length) ∧
      ∀ p : Nat, (shuffle draws B)[p]? = (idxs[p]?).bind (fun (k : Nat) => B[k]?) := by
  have hperm := shuffle_perm draws (List.range B.length)
  refine ⟨shuffle draws (List.range B.length), ?_, ?_, ?_, ?_⟩
  · exact hperm.nodup_iff.2 (List.nodup_range _)
  · rw [hperm.length_eq, List.length_range]
  · intro k hk
    exact List.mem_range.1 (hperm.mem_iff.1 hk)
  · intro p
    have h := congrArg (fun l => l[p]?) (shuffle_map draws (fun (k : Nat) => B[k]?) (List.range B.length))
    rw [← map_some_eq_range, shuffle_map] at h
    simp only [List.getElem?_map] at h
    cases hs : (shuffle draws B)[p]? with
    | none =>
      rw [hs] at h
      cases hi : (shuffle draws (List.range B.length))[p]? with
      | none => rfl
      | some k => rw [hi] at h; simp at h
    | some x =>
      rw [hs] at h
      cases hi : (shuffle draws (List.range B.length))[p]? with
      | none => rw [hi] at h; simp at h
      | some k =>
        rw [hi] at h
        simp only [Option.map_some', Option.some.injEq] at h
        exact h

/-! ## Starting an exam -/

theorem renderExamQuestion_of_lt (w : World) (h : w.exam.idx < w.exam.questions.length) :
    renderExamQuestion w =
      { w with examArea := ExamArea.question (w.exam.questions[w.exam.idx]) false } := by
  unfold renderExamQuestion
  have h1 : ¬ w.exam.idx ≥ w.exam.questions.length := by omega
  simp only [h1, if_false, List.getElem?_eq_getElem h]

theorem take40_length_pos (draws : Nat → Nat) (bank : List Question) (h : bank ≠ []) :
    0 < ((shuffle draws bank).take 40).length := by
  have hl := (shuffle_perm draws bank).length_eq
  have hb : 0 < bank.length := List.length_pos.2 h
  rw [List.length_take, hl]
  omega

theorem startExam_of_bank (draws : Nat → Nat) (tid : Nat) (w : World) (h : w.bank ≠ []) :
    startExam draws tid w =
      { w with
        exam := { running := true, timeLeft := 1800, timerId := some tid,
                  questions := (shuffle draws w.bank).take 40, idx := 0, correct := 0 }
        examArea := ExamArea.question
          (((shuffle draws w.bank).take 40).get ⟨0, take40_length_pos draws w.bank h⟩) false
        intervals := w.intervals ++ [tid]
        startDisabled := true } := by
  have hb : ¬ w.bank.length = 0 := by
    intro hz
    exact h (List.eq_nil_of_length_eq_zero hz)
  unfold startExam
  simp only [hb, if_false]
  rw [renderExamQuestion_of_lt _ (take40_length_pos draws w.bank h)]
  rfl

theorem startExam_of_empty (draws : Nat → Nat) (tid : Nat) (w : World) (h : w.bank = []) :
    startExam draws tid w = w := by
  unfold startExam
  simp [h]

/-- C11. `startExam` postcondition (draws in range): on an empty bank the
state is left as it is; on a non-empty bank `B` the exam runs with
`timeLeft = 1800`, `idx = 0`, `correct = 0`, a new countdown, and a question
sequence of length `min(40, |B|)` that reads `B` through an injective map of
positions: no bank entry is used twice and every element is a bank
question. -/
theorem startExam_post (draws : Nat → Nat) (tid : Nat) (w : World)
    (hdraws : ∀ i, draws i ≤ i) :
    (w.bank = [] → startExam draws tid w = w) ∧
    (w.bank ≠ [] →
      (startExam draws tid w).exam.running = true ∧
      (startExam draws tid w).exam.timeLeft = 1800 ∧
      (startExam draws tid w).exam.idx = 0 ∧
      (startExam draws tid w).exam.correct = 0 ∧
      (startExam draws tid w).exam.timerId = some tid ∧
      (startExam draws tid w).intervals = w.intervals ++ [tid] ∧
      (startExam draws tid w).exam.questions.length = min 40 w.bank.length ∧
      ∃ f : Nat → Nat,
        (∀ p q, p < min 40 w.bank.length → q < min 40 w.bank.length → f p = f q → p = q) ∧
        (∀ p, p < min 40 w.bank.length →
          f p < w.bank.length ∧ (startExam draws tid w).exam.questions[p]? = w.bank[f p]?)) := by
  have _ := hdraws
  refine ⟨startExam_of_empty draws tid w, ?_⟩
  intro hb
  rw [startExam_of_bank draws tid w hb]
  have hlen : ((shuffle draws w.bank).take 40).length = min 40 w.bank.length := by
    rw [List.length_take, (shuffle_perm draws w.bank).length_eq]
  refine ⟨rfl, rfl, rfl, rfl, rfl, rfl, hlen, ?_⟩
  obtain ⟨idxs, hnd, hil, hlt, hget⟩ := shuffle_index_map draws w.bank
  refine ⟨fun p => idxs.getD p 0, ?_, ?_⟩
  · intro p q hp hq hpq
    have hp' : p < idxs.length := by omega
    have hq' : q < idxs.length := by omega
    simp only [List.getD_eq_getElem?_getD, List.getElem?_eq_getElem hp',
      List.getElem?_eq_getElem hq', Option.getD_some] at hpq
    exact (hnd.getElem_inj_iff).1 hpq
  · intro p hp
    have hp' : p < idxs.length := by omega
    have hk : idxs[p]? = some idxs[p] := List.getElem?_eq_getElem hp'
    simp only [List.getD_eq_getElem?_getD, hk, Option.getD_some]
    refine ⟨hlt _ (List.getElem_mem _), ?_⟩
    simp only [List.getElem?_take_of_lt (show p < 40 by omega)]
    rw [hget p, hk]
    rfl

theorem startExam_post_witness :
    (∀ i, demoDraws i ≤ i) ∧ demoBank ≠ [] ∧
    (startExam demoDraws 1 (initialWorld demoBank none)).exam.running = true ∧
    (startExam demoDraws 1 (initialWorld demoBank none)).exam.questions.length = 3 :=
  ⟨fun i => Nat.le_refl i, by decide,
   ((startExam_post demoDraws 1 (initialWorld demoBank none) (fun i => Nat.le_refl i)).2
      (by decide)).1,
   by decide⟩

/-! ## Practice mode -/

theorem nextPracticeQuestion_cycle (draws : Nat → Nat) (theme : String) (bank : List Question)
    (p : Practice) (hn : 0 < (bank.filter (matchesTheme theme)).length)
    (hpool : p.pool = bank.filter (matchesTheme theme)) :
    nextPracticeQuestion draws theme false bank p =
      ({ pool := bank.filter (matchesTheme theme),
         index := (if p.index ≥ (bank.filter (matchesTheme theme)).length then 0 else p.index) + 1 },
       (bank.filter (matchesTheme theme))[
         if p.index ≥ (bank.filter (matchesTheme theme)).length then 0 else p.index]?) := by
  have hb : ¬ bank.length = 0 := by
    intro hz
    have : bank = [] := List.eq_nil_of_length_eq_zero hz
    rw [this] at hn
    simp at hn
  have hn0 : ¬ (bank.filter (matchesTheme theme)).length = 0 := by omega
  unfold nextPracticeQuestion
  simp only [hb, if_false, hpool, hn0, decide_False, Bool.false_or, decide_eq_true_eq]
  by_cases hge : p.index ≥ (bank.filter (matchesTheme theme)).length
  · simp [hge, buildPracticePool]
  · simp [hge, hpool]

theorem practiceCalls_inv (drawsAt : Nat → Nat → Nat) (draws0 : Nat → Nat) (theme : String)
    (bank : List Question) (hn : 0 < (bank.filter (matchesTheme theme)).length) (k : Nat) :
    (practiceCalls drawsAt theme false bank k
      (buildPracticePool draws0 theme false bank)).pool = bank.filter (matchesTheme theme) ∧
    (practiceCalls drawsAt theme false bank k
      (buildPracticePool draws0 theme false bank)).index ≤
        (bank.filter (matchesTheme theme)).length ∧
    (practiceCalls drawsAt theme false bank k
      (buildPracticePool draws0 theme false bank)).index %
        (bank.filter (matchesTheme theme)).length =
      k % (bank.filter (matchesTheme theme)).length := by
  induction k with
  | zero => simp [practiceCalls, buildPracticePool]
  | succ k ih =>
    obtain ⟨h1, h2, h3⟩ := ih
    simp only [practiceCalls]
    rw [nextPracticeQuestion_cycle _ _ _ _ hn h1]
    simp only [true_and]
    generalize (practiceCalls drawsAt theme false bank k
      (buildPracticePool draws0 theme false bank)).index = i at h2 h3
    generalize (bank.filter (matchesTheme theme)).length = n at hn h2 h3
    by_cases hge : i ≥ n
    · have hi : i = n := by omega
      subst hi
      simp only [ge_iff_le, le_refl, if_true, Nat.zero_add]
      refine ⟨by omega, ?_⟩
      rw [Nat.mod_self] at h3
      rw [Nat.add_mod k 1 i, ← h3, Nat.zero_add, Nat.mod_mod]
    · simp only [hge, if_false]
      refine ⟨by omega, ?_⟩
      rw [Nat.add_mod i 1 n, h3, ← Nat.add_mod]

/-- The filter of `buildPracticePool` yields the pool of the description. -/
theorem filter_matchesTheme (theme : String) (bank : List Question) :
    bank.filter (matchesTheme theme) = themePool theme bank := by
  unfold themePool
  by_cases h : theme = "ALL"
  · subst h
    simp [matchesTheme]
  · simp only [h, if_false]
    congr 1
    funext q
    simp [matchesTheme, h]

/-- C13. Practice cycling with shuffle off: let `F` be the sub-sequence of the
bank of the questions whose theme equals the filter `f` (`F` is the whole bank
for `f = "ALL"`) and let `n = |F| > 0`; then `buildPracticePool` builds `F`,
and call number `k = 0, 1, 2, ...` of `nextPracticeQuestion` after it presents
`F[k mod n]`; so every call presents a question of the pool, and the sequence
restarts at position 0 after each pass. -/
theorem practice_cycles (drawsAt : Nat → Nat → Nat) (draws0 : Nat → Nat) (theme : String)
    (bank : List Question) (k : Nat) (hn : 0 < (themePool theme bank).length) :
    (buildPracticePool draws0 theme false bank).pool = themePool theme bank ∧
    presented drawsAt theme false bank (buildPracticePool draws0 theme false bank) k =
      (themePool theme bank)[k % (themePool theme bank).length]? ∧
    (presented drawsAt theme false bank (buildPracticePool draws0 theme false bank) k).isSome
      = true ∧
    k % (themePool theme bank).length < (themePool theme bank).length := by
  have hlt : k % (themePool theme bank).length < (themePool theme bank).length :=
    Nat.mod_lt _ hn
  rw [← filter_matchesTheme] at hn hlt ⊢
  obtain ⟨h1, h2, h3⟩ := practiceCalls_inv drawsAt draws0 theme bank hn k
  have hpres : presented drawsAt theme false bank (buildPracticePool draws0 theme false bank) k =
      (bank.filter (matchesTheme theme))[k % (bank.filter (matchesTheme theme)).length]? := by
    unfold presented
    rw [nextPracticeQuestion_cycle _ _ _ _ hn h1]
    simp only
    by_cases hge : (practiceCalls drawsAt theme false bank k
        (buildPracticePool draws0 theme false bank)).index ≥
        (bank.filter (matchesTheme theme)).length
    · have hi : (practiceCalls drawsAt theme false bank k
          (buildPracticePool draws0 theme false bank)).index =
          (bank.filter (matchesTheme theme)).length := by omega
      rw [hi, Nat.mod_self] at h3
      simp only [hge, if_true, ← h3]
    · simp only [hge, if_false]
      rw [← h3, Nat.mod_eq_of_lt (by omega)]
  refine ⟨by simp [buildPracticePool], hpres, ?_, hlt⟩
  rw [hpres, List.getElem?_eq_getElem hlt]
  rfl

theorem practice_cycles_witness :
    themePool "Reasoning" demoMixedBank =
      [demoThemed "Reasoning" "R1", demoThemed "Reasoning" "R2"] ∧
    presented (fun _ => demoDraws) "Reasoning" false demoMixedBank
      (buildPracticePool demoDraws "Reasoning" false demoMixedBank) 3 =
      (themePool "Reasoning" demoMixedBank)[
        3 % (themePool "Reasoning" demoMixedBank).length]? ∧
    presented (fun _ => demoDraws) "Reasoning" false demoMixedBank
      (buildPracticePool demoDraws "Reasoning" false demoMixedBank) 3 =
      some (demoThemed "Reasoning" "R2") ∧
    presented (fun _ => demoDraws) "ALL" false demoMixedBank
      (buildPracticePool demoDraws "ALL" false demoMixedBank) 8 =
      some (demoThemed "Verbal" "V1") :=
  ⟨by decide,
   (practice_cycles (fun _ => demoDraws) demoDraws "Reasoning" demoMixedBank 3 (by decide)).2.1,
   by decide, by decide⟩

/-! ## Loading the bank -/

theorem Json.readProp_eq (q : JVal) (k : String) :
    Json.readProp q k = (Json.ownFields q).bind (fun fields => Dict.get fields k) := by
  cases q <;> rfl

theorem Json.isStr_eq (x : Option JVal) :
    Json.isStr x = (match x with
      | some (JVal.str _) => true
      | _ => false) := by
  unfold Json.isStr
  rfl

theorem Json.isArrayOf4_eq (x : Option JVal) :
    Json.isArrayOf4 x = (match x with
      | some (JVal.arr items _) => decide (items.length = 4)
      | _ => false) := by
  unfold Json.isArrayOf4
  split
  · exact Bool.eq_iff_iff.2 (by simp)
  · rfl

theorem Json.isNum_eq (x : Option JVal) :
    Json.isNum x = (match x with
      | some (JVal.num _) => true
      | _ => false) := by
  unfold Json.isNum
  rfl

/-- The filter of `loadBank` keeps exactly the records of the bank format. -/
theorem Json.keepsQuestion_eq (q : JVal) : Json.keepsQuestion q = Json.questionShaped q := by
  unfold Json.keepsQuestion Json.questionShaped
  simp only [Json.readProp_eq]
  cases q with
  | null => rfl
  | bool b => cases b <;> rfl
  | num n => simp [Json.ownFields, Json.isStr]
  | str s => simp [Json.ownFields, Json.isStr]
  | arr items props =>
    simp only [Json.ownFields, Json.truthy, Option.some_bind, Bool.true_and]
    rw [Json.isStr_eq, Json.isArrayOf4_eq, Json.isNum_eq]
  | obj fields =>
    simp only [Json.ownFields, Json.truthy, Option.some_bind, Bool.true_and]
    rw [Json.isStr_eq, Json.isArrayOf4_eq, Json.isNum_eq]

theorem Json.toBankRecord_of_shaped (str : JVal → String) (trim : String → String) (q : JVal)
    (r : BankRecord) (hk : Json.questionShaped q = true)
    (h : Json.toBankRecord str trim q = Except.ok r) :
    r.opts.length = 4 ∧ r.a = Json.answerOf q := by
  unfold Json.questionShaped at hk
  unfold Json.toBankRecord at h
  unfold Json.answerOf
  simp only [Json.readProp_eq] at h
  cases hf : Json.ownFields q with
  | none => rw [hf] at hk; simp at hk
  | some fields =>
    rw [hf] at hk h
    simp only [Option.some_bind, Bool.and_eq_true] at hk h ⊢
    obtain ⟨⟨hq, ho⟩, ha⟩ := hk
    cases h1 : Dict.get fields "q" with
    | none => rw [h1] at hq; simp at hq
    | some v1 =>
      cases h2 : Dict.get fields "opts" with
      | none => rw [h2] at ho; simp at ho
      | some v2 =>
        cases h3 : Dict.get fields "a" with
        | none => rw [h3] at ha; simp at ha
        | some v3 =>
          rw [h1] at hq h
          rw [h2] at ho h
          rw [h3] at ha h
          cases v1 <;> simp at hq
          cases v2 <;> simp at ho
          cases v3 <;> simp at ha
          simp only at h
          split at h
          · simp only [Except.ok.injEq] at h
            rw [← h]
            simp [ho]
          · split at h
            · simp at h
            · simp only [Except.ok.injEq] at h
              rw [← h]
              simp [ho]

theorem Json.convertAll_of_shaped (str : JVal → String) (trim : String → String)
    (l : List JVal) (recs : List BankRecord) (hk : ∀ q ∈ l, Json.questionShaped q = true)
    (h : Json.convertAll str trim l = Except.ok recs) :
    (∀ r ∈ recs, r.opts.length = 4) ∧ recs.map (fun r => r.a) = l.map Json.answerOf := by
  induction l generalizing recs with
  | nil =>
    simp only [Json.convertAll, Except.ok.injEq] at h
    subst h
    simp
  | cons q rest ih =>
    unfold Json.convertAll at h
    cases h1 : Json.toBankRecord str trim q with
    | error e => rw [h1] at h; simp at h
    | ok r =>
      cases h2 : Json.convertAll str trim rest with
      | error e => rw [h1, h2] at h; simp at h
      | ok rs =>
        rw [h1, h2] at h
        simp only [Except.ok.injEq] at h
        subst h
        obtain ⟨g1, g2⟩ :=
          Json.toBankRecord_of_shaped str trim q r (hk q (List.mem_cons_self _ _)) h1
        obtain ⟨i1, i2⟩ := ih rs (fun x hx => hk x (List.mem_cons_of_mem _ hx)) h2
        constructor
        · intro x hx
          rcases List.mem_cons.1 hx with rfl | hx
          · exact g1
          · exact i1 x hx
        · simp [g2, i2]

theorem Json.filter_keeps_eq (items : List JVal) :
    items.filter Json.keepsQuestion = items.filter Json.questionShaped := by
  congr 1
  funext q
  exact Json.keepsQuestion_eq q

/-- C14 (as amended). When `loadBank` succeeds on `data`, `data` is an array
and `BANK` holds one record for each element that has a string `q`, an array
`opts` of exactly 4 elements and a number `a`, in input order, the other
elements being dropped; every record of `BANK` has exactly 4 options and the
number `a` of its input record, whatever that number is: a record with any
rational `a` (not an integer, negative, above 3) is kept with that `a`. -/
theorem loadBank_keeps (str : JVal → String) (trim : String → String) (data : JVal)
    (recs : List BankRecord) (h : Json.loadBank str trim data = Except.ok recs) :
    (∀ r ∈ recs, r.opts.length = 4) ∧
    (∃ items props, data = JVal.arr items props ∧
      recs.length = (items.filter Json.questionShaped).length ∧
      recs.map (fun r => r.a) = (items.filter Json.questionShaped).map Json.answerOf) ∧
    (∀ (text : String) (o1 o2 o3 o4 : JVal) (x : ℚ),
      Json.loadBank str trim
        (JVal.arr [JVal.obj [("q", JVal.str text), ("opts", JVal.arr [o1, o2, o3, o4] []),
          ("a", JVal.num x)]] []) =
        Except.ok [{ theme := JVal.str "Problem solving", q := trim text,
                     opts := [str o1, str o2, str o3, str o4], a := x, exp := trim "" }]) := by
  refine ⟨?_, ?_, ?_⟩
  rotate_left 2
  · intro text o1 o2 o3 o4 x
    simp [Json.loadBank, Json.keepsQuestion, Json.readProp, Json.getProp, Dict.get, Json.truthy,
      Json.isStr, Json.isArrayOf4, Json.isNum, Json.convertAll, Json.toBankRecord]
  · unfold Json.loadBank at h
    cases data with
    | arr items props =>
      simp only [Json.filter_keeps_eq] at h
      exact (Json.convertAll_of_shaped str trim _ recs
        (fun q hq => (List.mem_filter.1 hq).2) h).1
    | null => simp at h
    | bool b => simp at h
    | num n => simp at h
    | str s => simp at h
    | obj f => simp at h
  · unfold Json.loadBank at h
    cases data with
    | arr items props =>
      simp only [Json.filter_keeps_eq] at h
      have h2 := (Json.convertAll_of_shaped str trim _ recs
        (fun q hq => (List.mem_filter.1 hq).2) h).2
      refine ⟨items, props, rfl, ?_, h2⟩
      have := congrArg List.length h2
      simpa using this
    | null => simp at h
    | bool b => simp at h
    | num n => simp at h
    | str s => simp at h
    | obj f => simp at h

theorem loadBank_keeps_witness :
    Json.loadBank Json.demoStr id Json.demoBankFile = Except.ok Json.demoLoaded ∧
    ∀ r ∈ Json.demoLoaded, r.opts.length = 4 :=
  ⟨rfl, (loadBank_keeps Json.demoStr id Json.demoBankFile Json.demoLoaded rfl).1⟩

/-- C14 (as stated) fails: of the sample bank file `loadBank` keeps the
records with `a = 7`, `a = 3/2` and `a = -1`, which are numbers and pass the
filter, so `BANK` holds records whose correct index is not in `0..3` and one
whose correct index is not an integer. -/
theorem loadBank_keeps_out_of_range :
    (Json.loadBank Json.demoStr id Json.demoBankFile).toOption.map
        (fun recs => recs.map (fun r => (r.opts.length, r.a))) =
      some [(4, 1), (4, 7), (4, 3 / 2), (4, -1)] ∧
    ¬ ((0 : ℚ) ≤ 7 ∧ (7 : ℚ) ≤ 3) ∧ ¬ ∃ z : Int, (z : ℚ) = 3 / 2 := by
  refine ⟨rfl, by norm_num, ?_⟩
  rintro ⟨z, hz⟩
  have h2 : ((2 * z : Int) : ℚ) = ((3 : Int) : ℚ) := by
    push_cast
    rw [hz]
    norm_num
  have h3 : 2 * z = 3 := by exact_mod_cast h2
  omega

/-! ## The order of the statistics -/

theorem compareCodes_total (xs ys : List Nat) :
    compareCodes xs ys ≤ 0 ∨ compareCodes ys xs ≤ 0 := by
  induction xs generalizing ys with
  | nil => cases ys <;> simp [compareCodes]
  | cons x xs ih =>
    cases ys with
    | nil => simp [compareCodes]
    | cons y ys =>
      simp only [compareCodes]
      by_cases h1 : x < y
      · simp [h1]
      · by_cases h2 : y < x
        · simp [h2]
        · simp only [h1, h2, if_false]
          exact ih ys

theorem compareCodes_trans (xs ys zs : List Nat) (h1 : compareCodes xs ys ≤ 0)
    (h2 : compareCodes ys zs ≤ 0) : compareCodes xs zs ≤ 0 := by
  induction xs generalizing ys zs with
  | nil => cases zs <;> simp [compareCodes]
  | cons x xs ih =>
    cases ys with
    | nil => simp [compareCodes] at h1
    | cons y ys =>
      cases zs with
      | nil => simp [compareCodes] at h2
      | cons z zs =>
        simp only [compareCodes] at h1 h2 ⊢
        by_cases hxy : x < y
        · by_cases hyz : y < z
          · have : x < z := by omega
            simp [this]
          · by_cases hzy : z < y
            · simp [hyz, hzy] at h2
            · have : x < z := by omega
              simp [this]
        · by_cases hyx : y < x
          · simp [hxy, hyx] at h1
          · simp only [hxy, hyx, if_false] at h1
            have hxy' : x = y := by omega
            subst hxy'
            by_cases hyz : x < z
            · simp [hyz]
            · by_cases hzy : z < x
              · simp [hyz, hzy] at h2
              · simp only [hyz, hzy, if_false] at h2 ⊢
                exact ih ys zs h1 h2

theorem computeThemeStats_themes_nodup (cmp : String → String → Int) (themes : List String)
    (now : Int) (nDays : Int) (ls : Storage) :
    ((computeThemeStats cmp themes now nDays ls).map (fun e => e.theme)).Nodup := by
  unfold computeThemeStats
  simp only
  have hp := (List.perm_insertionSort (fun a b : ThemeStat => cmp a.theme b.theme ≤ 0)
    ((themeTable themes (lastNDaysAnswers now nDays ls)).map toStat)).map (fun e => e.theme)
  rw [hp.nodup_iff, List.map_map]
  have hk : (fun e : ThemeStat => e.theme) ∘ toStat = Prod.fst := by
    funext x
    rfl
  rw [hk]
  exact themeTable_nodup themes _

/-- C16 (as amended). For a comparison that is total and transitive, as
`localeCompare` is, the output of `computeThemeStats` is ascending (an entry
never compares above a later one) and no theme appears in more than one
entry; it is strictly ascending when the comparison returns `0` for equal
strings only. -/
theorem computeThemeStats_sorted (cmp : String → String → Int) (themes : List String)
    (now : Int) (nDays : Int) (ls : Storage)
    (htotal : ∀ a b, cmp a b ≤ 0 ∨ cmp b a ≤ 0)
    (htrans : ∀ a b c, cmp a b ≤ 0 → cmp b c ≤ 0 → cmp a c ≤ 0) :
    List.Pairwise (fun x y : ThemeStat => cmp x.theme y.theme ≤ 0)
      (computeThemeStats cmp themes now nDays ls) ∧
    ((computeThemeStats cmp themes now nDays ls).map (fun e => e.theme)).Nodup ∧
    ((∀ a b, cmp a b = 0 → a = b) →
      List.Pairwise (fun x y : ThemeStat => cmp x.theme y.theme < 0)
        (computeThemeStats cmp themes now nDays ls)) := by
  have hsorted : List.Pairwise (fun x y : ThemeStat => cmp x.theme y.theme ≤ 0)
      (computeThemeStats cmp themes now nDays ls) := by
    haveI : IsTotal ThemeStat (fun a b => cmp a.theme b.theme ≤ 0) :=
      ⟨fun a b => htotal a.theme b.theme⟩
    haveI : IsTrans ThemeStat (fun a b => cmp a.theme b.theme ≤ 0) :=
      ⟨fun a b c => htrans a.theme b.theme c.theme⟩
    exact List.sorted_insertionSort (fun a b : ThemeStat => cmp a.theme b.theme ≤ 0) _
  have hnodup := computeThemeStats_themes_nodup cmp themes now nDays ls
  refine ⟨hsorted, hnodup, ?_⟩
  intro hsep
  have hne : List.Pairwise (fun x y : ThemeStat => x.theme ≠ y.theme)
      (computeThemeStats cmp themes now nDays ls) := by
    have := hnodup
    unfold List.Nodup at this
    rw [List.pairwise_map] at this
    exact this
  refine (hsorted.and hne).imp ?_
  rintro x y ⟨hle, hxy⟩
  rcases lt_or_eq_of_le hle with h | h
  · exact h
  · exact absurd (hsep _ _ h) hxy

theorem computeThemeStats_sorted_witness :
    (∀ a b, demoCompare a b ≤ 0 ∨ demoCompare b a ≤ 0) ∧
    List.Pairwise (fun x y : ThemeStat => demoCompare x.theme y.theme ≤ 0)
      (computeThemeStats demoCompare ["Verbal", "Numeracy", "Reasoning"] 700000000 7 demoLog) ∧
    computeThemeStats demoCompare ["Verbal", "Numeracy", "Reasoning"] 700000000 7 demoLog =
      [⟨"Numeracy", 1, 0, 0⟩, ⟨"Reasoning", 2, 1, 50⟩, ⟨"Verbal", 0, 0, 0⟩] :=
  ⟨fun a b => compareCodes_total _ _,
   (computeThemeStats_sorted demoCompare ["Verbal", "Numeracy", "Reasoning"] 700000000 7 demoLog
      (fun a b => compareCodes_total _ _) (fun a b c => compareCodes_trans _ _ _)).1,
   by decide⟩

/-- C16 (as stated) fails for a comparison that, as `localeCompare` must,
returns `0` for canonically equivalent strings: the themes `"Caf\u00e9"`
(precomposed) and `"Cafe\u0301"` (with a combining accent) are different
strings, so both get an entry, and the two entries compare `0`, so the output
is not strictly ascending. -/
theorem computeThemeStats_not_strict :
    ("Caf\u00e9" : String) ≠ "Cafe\u0301" ∧
    demoCollate "Caf\u00e9" "Cafe\u0301" = 0 ∧
    computeThemeStats demoCollate ["Caf\u00e9", "Cafe\u0301"] 700000000 7 none =
      [⟨"Caf\u00e9", 0, 0, 0⟩, ⟨"Cafe\u0301", 0, 0, 0⟩] ∧
    ¬ List.Pairwise (fun x y : ThemeStat => demoCollate x.theme y.theme < 0)
      (computeThemeStats demoCollate ["Caf\u00e9", "Cafe\u0301"] 700000000 7 none) := by
  decide

/-! ## The invariant of the exam page -/

theorem clearExamInterval_nil (timerId : Option Nat) : clearExamInterval timerId [] = [] := by
  unfold clearExamInterval
  cases timerId with
  | none => rfl
  | some id => by_cases h : id ≠ 0 <;> simp [h]

theorem clearExamInterval_self (tid : Nat) (h : tid ≠ 0) :
    clearExamInterval (some tid) [tid] = [] := by
  simp [clearExamInterval, h]

theorem ExamInv.intervals_cleared {w : World} (h : ExamInv w) :
    clearExamInterval w.exam.timerId w.intervals = [] := by
  cases hr : w.exam.running with
  | false => rw [h.idle_timer hr, clearExamInterval_nil]
  | true =>
    obtain ⟨tid, h0, h1, h2⟩ := h.running_timer hr
    rw [h1, h2, clearExamInterval_self tid h0]

theorem initialWorld_inv (bank : List Question) (ls : Storage) : ExamInv (initialWorld bank ls) where
  correct_le := Nat.le_refl _
  idx_le := Nat.le_refl _
  length_le := by simp [initialWorld, idleExam]
  time_nonneg := by simp [initialWorld, idleExam]
  time_le := by simp [initialWorld, idleExam]
  running_time := by simp [initialWorld, idleExam]
  running_timer := by simp [initialWorld, idleExam]
  idle_timer := fun _ => rfl
  running_start := by simp [initialWorld, idleExam]
  shown_lt := by simp [initialWorld]
  card := by simp [initialWorld]

theorem ExamInv.setTime {w : World} (h : ExamInv w) (t : Int) (h1 : 1 ≤ t) (h2 : t ≤ 1800) :
    ExamInv { w with exam := { w.exam with timeLeft := t } } where
  correct_le := h.correct_le
  idx_le := h.idx_le
  length_le := h.length_le
  time_nonneg := le_trans (by decide) h1
  time_le := h2
  running_time := fun _ => h1
  running_timer := h.running_timer
  idle_timer := h.idle_timer
  running_start := h.running_start
  shown_lt := h.shown_lt
  card := h.card

/-- `endExam` establishes the invariant also when the countdown has just
reached zero: it is enough that the invariant holds once `timeLeft` is put
back to `1`. -/
theorem endExam_inv (w : World) (h : ExamInv { w with exam := { w.exam with timeLeft := 1 } })
    (h0 : 0 ≤ w.exam.timeLeft) (h1 : w.exam.timeLeft ≤ 1800) : ExamInv (endExam w) := by
  unfold endExam
  cases hr : w.exam.running with
  | false =>
    simp only [Bool.not_false, if_true]
    exact { correct_le := h.correct_le, idx_le := h.idx_le, length_le := h.length_le,
            time_nonneg := h0, time_le := h1,
            running_time := fun hh => by rw [hr] at hh; exact absurd hh (by simp),
            running_timer := fun hh => by rw [hr] at hh; exact absurd hh (by simp),
            idle_timer := fun _ => h.idle_timer hr,
            running_start := fun hh => by rw [hr] at hh; exact absurd hh (by simp),
            shown_lt := h.shown_lt, card := h.card }
  | true =>
    simp only [Bool.not_true, Bool.false_eq_true, if_false]
    exact { correct_le := h.correct_le, idx_le := h.idx_le, length_le := h.length_le,
            time_nonneg := h0, time_le := h1,
            running_time := fun hh => by simp at hh,
            running_timer := fun hh => by simp at hh,
            idle_timer := fun _ => h.intervals_cleared,
            running_start := fun hh => by simp at hh,
            shown_lt := fun q hq => by simp at hq,
            card := fun c p hcp => by
              simp only [ExamArea.finished.injEq] at hcp
              obtain ⟨rfl, rfl⟩ := hcp
              exact ⟨le_trans (le_trans h.correct_le h.idx_le) h.length_le, rfl⟩ }

theorem examTick_inv (w : World) (h : ExamInv w) (hi : w.intervals ≠ []) :
    ExamInv (examTick w) := by
  have hr : w.exam.running = true := by
    cases hr : w.exam.running with
    | true => rfl
    | false => exact absurd (h.idle_timer hr) hi
  have ht := h.running_time hr
  unfold examTick
  simp only
  split
  · apply endExam_inv
    · exact h.setTime 1 (le_refl 1) (by decide)
    · simp only
      omega
    · simp only
      have := h.time_le
      omega
  · rename_i hlt
    have hlt2 : ¬ (w.exam.timeLeft - 1 ≤ 0) := hlt
    have := h.time_le
    exact h.setTime _ (by omega) (by omega)

theorem clickExamOption_inv (now : Int) (i : Nat) (w : World) (h : ExamInv w) :
    ExamInv (clickExamOption now i w) := by
  unfold clickExamOption
  split
  · rename_i qObj hq
    have hlt := h.shown_lt qObj hq
    split
    · unfold examOnAnswered
      simp only
      by_cases hc : (i : Int) = qObj.a
      · simp only [hc, decide_True, if_true]
        exact { correct_le := Nat.succ_le_succ h.correct_le, idx_le := hlt,
                length_le := h.length_le, time_nonneg := h.time_nonneg, time_le := h.time_le,
                running_time := h.running_time, running_timer := h.running_timer,
                idle_timer := h.idle_timer, running_start := h.running_start,
                shown_lt := fun q hq => by simp at hq,
                card := fun c p hcp => by simp at hcp }
      · simp only [hc, decide_False, Bool.false_eq_true, if_false]
        exact { correct_le := Nat.le_succ_of_le h.correct_le, idx_le := hlt,
                length_le := h.length_le, time_nonneg := h.time_nonneg, time_le := h.time_le,
                running_time := h.running_time, running_timer := h.running_timer,
                idle_timer := h.idle_timer, running_start := h.running_start,
                shown_lt := fun q hq => by simp at hq,
                card := fun c p hcp => by simp at hcp }
    · exact h
  · exact h

theorem renderExamQuestion_inv (w : World) (h : ExamInv w) : ExamInv (renderExamQuestion w) := by
  by_cases hge : w.exam.idx ≥ w.exam.questions.length
  · unfold renderExamQuestion
    simp only [hge, if_true]
    exact endExam_inv w (h.setTime 1 (le_refl 1) (by decide)) h.time_nonneg h.time_le
  · have hlt : w.exam.idx < w.exam.questions.length := by omega
    rw [renderExamQuestion_of_lt w hlt]
    exact { correct_le := h.correct_le, idx_le := h.idx_le, length_le := h.length_le,
            time_nonneg := h.time_nonneg, time_le := h.time_le,
            running_time := h.running_time, running_timer := h.running_timer,
            idle_timer := h.idle_timer, running_start := h.running_start,
            shown_lt := fun _ _ => hlt,
            card := fun c p hcp => by simp at hcp }

theorem fireRender_inv (w : World) (h : ExamInv w) : ExamInv (fireRender w) := by
  unfold fireRender
  split
  · exact h
  · apply renderExamQuestion_inv
    exact { correct_le := h.correct_le, idx_le := h.idx_le, length_le := h.length_le,
            time_nonneg := h.time_nonneg, time_le := h.time_le,
            running_time := h.running_time, running_timer := h.running_timer,
            idle_timer := h.idle_timer, running_start := h.running_start,
            shown_lt := h.shown_lt, card := h.card }

theorem resetExam_inv (w : World) (h : ExamInv w) : ExamInv (resetExam w) where
  correct_le := Nat.le_refl _
  idx_le := Nat.le_refl _
  length_le := by simp [resetExam, idleExam]
  time_nonneg := by simp [resetExam, idleExam]
  time_le := by simp [resetExam, idleExam]
  running_time := by simp [resetExam, idleExam]
  running_timer := by simp [resetExam, idleExam]
  idle_timer := fun _ => h.intervals_cleared
  running_start := by simp [resetExam, idleExam]
  shown_lt := by simp [resetExam]
  card := by simp [resetExam]

/-- In a state of the invariant a running exam has the Start button disabled,
so a click on Start does nothing. -/
theorem clickStart_of_running (draws : Nat → Nat) (tid : Nat) (w : World) (h : ExamInv w)
    (hr : w.exam.running = true) : clickStart draws tid w = w := by
  unfold clickStart
  rw [h.running_start hr]
  rfl

theorem clickStart_inv (draws : Nat → Nat) (tid : Nat) (w : World) (h : ExamInv w)
    (htid : tid ≠ 0) : ExamInv (clickStart draws tid w) := by
  cases hr : w.exam.running with
  | true => rw [clickStart_of_running draws tid w h hr]; exact h
  | false =>
    unfold clickStart
    split
    · exact h
    · by_cases hb : w.bank = []
      · rw [startExam_of_empty draws tid w hb]
        exact h
      · rw [startExam_of_bank draws tid w hb]
        have hlen : ((shuffle draws w.bank).take 40).length ≤ 40 := by
          rw [List.length_take]
          omega
        exact { correct_le := Nat.le_refl _, idx_le := Nat.zero_le _, length_le := hlen,
                time_nonneg := by norm_num, time_le := by norm_num,
                running_time := fun _ => by norm_num,
                running_timer := fun _ => ⟨tid, htid, rfl, by simp [h.idle_timer hr]⟩,
                idle_timer := fun hh => by simp at hh,
                running_start := fun _ => rfl,
                shown_lt := fun _ _ => take40_length_pos draws w.bank hb,
                card := fun c p hcp => by simp at hcp }

theorem reachable_inv (w : World) (h : Reachable w) : ExamInv w := by
  induction h with
  | init bank ls => exact initialWorld_inv bank ls
  | reload w bank _ ih =>
    exact { correct_le := ih.correct_le, idx_le := ih.idx_le, length_le := ih.length_le,
            time_nonneg := ih.time_nonneg, time_le := ih.time_le,
            running_time := ih.running_time, running_timer := ih.running_timer,
            idle_timer := ih.idle_timer, running_start := ih.running_start,
            shown_lt := ih.shown_lt, card := ih.card }
  | store w ls _ ih =>
    exact { correct_le := ih.correct_le, idx_le := ih.idx_le, length_le := ih.length_le,
            time_nonneg := ih.time_nonneg, time_le := ih.time_le,
            running_time := ih.running_time, running_timer := ih.running_timer,
            idle_timer := ih.idle_timer, running_start := ih.running_start,
            shown_lt := ih.shown_lt, card := ih.card }
  | start w draws tid _ _ htid ih => exact clickStart_inv draws tid w ih htid
  | tick w _ hi ih => exact examTick_inv w ih hi
  | answer w now i _ ih => exact clickExamOption_inv now i w ih
  | render w _ ih => exact fireRender_inv w ih
  | reset w _ ih => exact resetExam_inv w ih

/-- The sample exam right after the click on Start is a state of the page. -/
theorem demoStarted_reachable : Reachable demoStarted :=
  Reachable.start (initialWorld demoBank none) demoDraws 1 (Reachable.init demoBank none)
    (fun i => Nat.le_refl i) (by decide)

/-- C15 (as amended). In every state the page can reach, a running exam has
the Start button disabled, so a click on Start does not run `startExam`: it
leaves `timeLeft`, `idx`, `correct`, the question sequence and the countdown
as they are. -/
theorem start_click_ignored_while_running (draws : Nat → Nat) (tid : Nat) (w : World)
    (h : Reachable w) (hr : w.exam.running = true) :
    w.startDisabled = true ∧ clickStart draws tid w = w ∧
    (clickStart draws tid w).exam = w.exam ∧ (clickStart draws tid w).intervals = w.intervals := by
  have hinv := reachable_inv w h
  have hc := clickStart_of_running draws tid w hinv hr
  exact ⟨hinv.running_start hr, hc, by rw [hc], by rw [hc]⟩

theorem start_click_ignored_while_running_witness :
    demoStarted.exam.running = true ∧ clickStart demoDraws 2 demoStarted = demoStarted :=
  ⟨by decide,
   (start_click_ignored_while_running demoDraws 2 demoStarted demoStarted_reachable
      (by decide)).2.1⟩

/-- C15 (as stated) fails: `startExam` has no `running` check.  Called on the
running sample exam with one second left it puts `timeLeft` back to 1800 and
registers a second countdown next to the first. -/
theorem startExam_not_ignored :
    demoLateExam.exam.running = true ∧ demoLateExam.exam.timeLeft = 1 ∧
    demoLateExam.intervals = [1] ∧
    (startExam demoDraws 2 demoLateExam).exam.timeLeft = 1800 ∧
    (startExam demoDraws 2 demoLateExam).intervals = [1, 2] := by
  decide

theorem examTicks_succ (n : Nat) (w : World) :
    examTicks (n + 1) w = examTick (examTicks n w) := by
  induction n generalizing w with
  | zero => rfl
  | succ k ih =>
    rw [examTicks, ih (examTick w)]
    rfl

/-- C20 (as stated) fails when `startExam` itself is a step: run on the
running sample exam it leaves two countdowns active; after 1800 ticks the exam
has ended and cleared only the second, and the next tick of the first, still
active, takes `timeLeft` to `-1`. -/
theorem double_start_breaks_invariant :
    demoStarted.exam.running = true ∧ demoTwiceStarted.intervals = [1, 2] ∧
    (examTicks 1800 demoTwiceStarted).exam.running = false ∧
    (examTicks 1800 demoTwiceStarted).intervals = [1] ∧
    (examTicks 1801 demoTwiceStarted).exam.timeLeft = -1 := by
  have h := examTicks_of_lt 1799 demoTwiceStarted (by decide)
  have h0 : examTicks 1800 demoTwiceStarted = examTick (examTicks 1799 demoTwiceStarted) :=
    examTicks_succ 1799 demoTwiceStarted
  have h1 : examTicks 1801 demoTwiceStarted = examTick (examTicks 1800 demoTwiceStarted) :=
    examTicks_succ 1800 demoTwiceStarted
  rw [h1, h0, h]
  decide

/-- C20 (as amended). Exam state invariant: in every state the page can reach
(clicks on Start, which is the only caller of `startExam` and is disabled
while an exam runs, countdown ticks while an interval is active, clicks on an
option of the displayed question, deferred renders, resets)
`correct <= idx <= length of the question sequence <= 40` and
`0 <= timeLeft <= 1800`; hence the score `Math.round((correct / 40) * 100)` is
at most 100 (it is a natural number), on the score card too. -/
theorem exam_invariant (w : World) (h : Reachable w) :
    w.exam.correct ≤ w.exam.idx ∧ w.exam.idx ≤ w.exam.questions.length ∧
    w.exam.questions.length ≤ 40 ∧ 0 ≤ w.exam.timeLeft ∧ w.exam.timeLeft ≤ 1800 ∧
    roundPct w.exam.correct 40 ≤ 100 ∧
    (∀ c p, w.examArea = ExamArea.finished c p → c ≤ 40 ∧ p = roundPct c 40 ∧ p ≤ 100) := by
  have hinv := reachable_inv w h
  have hc40 : w.exam.correct ≤ 40 := le_trans (le_trans hinv.correct_le hinv.idx_le) hinv.length_le
  refine ⟨hinv.correct_le, hinv.idx_le, hinv.length_le, hinv.time_nonneg, hinv.time_le,
    roundPct_le_100 _ _ hc40 (by decide), ?_⟩
  intro c p hcp
  obtain ⟨h1, h2⟩ := hinv.card c p hcp
  exact ⟨h1, h2, by rw [h2]; exact roundPct_le_100 _ _ h1 (by decide)⟩

theorem exam_invariant_witness :
    Reachable (clickExamOption 5000 0 demoStarted) ∧
    (clickExamOption 5000 0 demoStarted).exam.correct = 1 ∧
    (clickExamOption 5000 0 demoStarted).exam.correct ≤
      (clickExamOption 5000 0 demoStarted).exam.idx :=
  ⟨Reachable.answer demoStarted 5000 0 demoStarted_reachable, by decide,
   (exam_invariant (clickExamOption 5000 0 demoStarted)
      (Reachable.answer demoStarted 5000 0 demoStarted_reachable)).1⟩

end EpsoPrep
